import Mathlib

/-!
# Rendezvous normalisation, rendezvous supervisor, step builders and summary of `hrp`

A shallow embedding of `hrp/step_rendezvous.go`, `hrp/testcase_step.go`,
`hrp/step_request.go` and `hrp/summary.go`: the normalisation `initRendezvous`,
`waitRendezvous`, the supervisor `waitSingleRendezvous` as a state machine, the
request builders, and `appendCaseSummary`.

Go's `int64` values are embedded as `Int`; the theorems that depend on the
`int64` range carry it as a hypothesis.  Go's `float32` values are embedded
exactly: a finite value is the rational number it denotes, and every
arithmetic operation rounds its exact result to the nearest binary32 value,
ties to even (IEEE 754 `roundTiesToEven`, the only rounding Go uses).
-/

namespace Hrp

/-! ## float32 -/

/-- Values of Go's `float32`.  The two zeros are identified: the code below only
compares, multiplies and divides, and `-0 == 0` holds in Go. -/
inductive F32 where
  | nan
  | inf (neg : Bool)
  | fin (q : ℚ)
  deriving DecidableEq

namespace F32

/-- Round a rational to the nearest integer, ties to the even one. -/
def rne (x : ℚ) : ℤ :=
  let f := ⌊x⌋
  let r := x - f
  if r < 1 / 2 then f else if 1 / 2 < r then f + 1 else if f % 2 = 0 then f else f + 1

/-- Binary logarithm of a natural number by repeated halving; `fuel` bounds the
number of halvings. -/
def log2Fuel : Nat → Nat → Nat
  | 0, _ => 0
  | fuel + 1, n => if n < 2 then 0 else log2Fuel fuel (n / 2) + 1

/-- The position of the leading bit of `n`: `⌊log₂ n⌋` for `n ≠ 0`. -/
def natLog2 (n : Nat) : Nat := log2Fuel n n

/-- The binary exponent of a non-zero rational: the `e` with `2^e ≤ |q| < 2^(e+1)`. -/
def ilog2 (q : ℚ) : ℤ :=
  let e0 : ℤ := (natLog2 q.num.natAbs : ℤ) - (natLog2 q.den : ℤ)
  if (2 : ℚ) ^ e0 ≤ |q| then e0 else e0 - 1

/-- Spacing of the binary32 values around `q`: a 24-bit significand, and the
exponent never below `-126` (below it the values are subnormal). -/
def ulp (q : ℚ) : ℚ := (2 : ℚ) ^ (max (ilog2 q) (-126) - 23)

/-- The multiple of `ulp q` nearest to `q`, ties to even. -/
def roundQ (q : ℚ) : ℚ := if q = 0 then 0 else (rne (q / ulp q) : ℚ) * ulp q

/-- Round an exact result to `float32`; magnitudes that round to `2^128` or more
overflow to an infinity. -/
def round (q : ℚ) : F32 :=
  let r := roundQ q
  if (2 : ℚ) ^ 128 ≤ |r| then inf (decide (r < 0)) else fin r

/-- Go `float32(n)` for an integer `n`. -/
def ofInt (n : Int) : F32 := round (n : ℚ)

/-- Go `x * y` on `float32`. -/
def mul : F32 → F32 → F32
  | fin a, fin b => round (a * b)
  | fin a, inf n => if a = 0 then nan else inf (xor (decide (a < 0)) n)
  | inf n, fin b => if b = 0 then nan else inf (xor n (decide (b < 0)))
  | inf n, inf m => inf (xor n m)
  | _, _ => nan

/-- Go `x / y` on `float32`. -/
def div : F32 → F32 → F32
  | fin a, fin b =>
    if b = 0 then (if a = 0 then nan else inf (decide (a < 0))) else round (a / b)
  | fin _, inf _ => fin 0
  | inf n, fin b => inf (xor n (decide (b < 0)))
  | _, _ => nan

/-- Go `x < y` on `float32`: false as soon as one side is NaN. -/
def lt : F32 → F32 → Bool
  | fin a, fin b => decide (a < b)
  | fin _, inf n => !n
  | inf n, fin _ => n
  | inf n, inf m => n && !m
  | _, _ => false

/-- Go `x == y` on `float32`: false as soon as one side is NaN. -/
def eq : F32 → F32 → Bool
  | fin a, fin b => decide (a = b)
  | inf n, inf m => n == m
  | _, _ => false

/-- Go `x <= y` on `float32`. -/
def le (x y : F32) : Bool := lt x y || eq x y

/-- Go `x > y` on `float32`. -/
def gt (x y : F32) : Bool := lt y x

/-- Go `int64(x)` for a `float32`: the fraction is discarded (truncation toward
zero).  When the truncated value does not fit `int64`, or `x` is NaN or
infinite, Go leaves the result to the implementation; the value modelled is the
one amd64 produces, `-2^63`. -/
def toInt64 : F32 → Int
  | fin q =>
    let t : Int := if 0 ≤ q then ⌊q⌋ else ⌈q⌉
    if -(2 : Int) ^ 63 ≤ t ∧ t < (2 : Int) ^ 63 then t else -(2 : Int) ^ 63
  | _ => -(2 : Int) ^ 63

end F32

/-! ## `testcase_step.go`: data model -/

/-- Go `interface{}` values, as far as the builders store them. -/
inductive Any where
  | null
  | bool (b : Bool)
  | int (n : Int)
  | str (s : String)
  deriving DecidableEq, Repr

/-- Go `map[string]T`, kept as its list of bindings. -/
abbrev GoMap (α : Type) := List (String × α)

/-- The type `HTTPMethod` is a Go string type. -/
abbrev HTTPMethod := String

def httpGET : HTTPMethod := "GET"
def httpHEAD : HTTPMethod := "HEAD"
def httpPOST : HTTPMethod := "POST"
def httpPUT : HTTPMethod := "PUT"
def httpDELETE : HTTPMethod := "DELETE"
def httpOPTIONS : HTTPMethod := "OPTIONS"
def httpPATCH : HTTPMethod := "PATCH"

/-- The struct `Request` of `step_request.go`; an omitted field of a Go composite literal
has its zero value. -/
structure Request where
  Method : HTTPMethod
  URL : String
  Params : Option (GoMap Any) := none
  Headers : Option (GoMap String) := none
  Cookies : Option (GoMap String) := none
  Body : Any := Any.null
  Json : Any := Any.null
  Data : Any := Any.null
  Timeout : F32 := F32.fin 0
  AllowRedirects : Bool := false
  Verify : Bool := false
  deriving DecidableEq

/-- The struct `Validator` of `step_request.go`. -/
structure Validator where
  Check : String
  Assert : String
  Expect : Any
  Message : String
  deriving DecidableEq

abbrev transactionType := String

def transactionStart : transactionType := "start"
def transactionEnd : transactionType := "end"

/-- The struct `Transaction`; its Go field `Type` is a Lean keyword and is named `Typ`. -/
structure Transaction where
  Name : String
  Typ : transactionType
  deriving DecidableEq

def defaultRendezvousTimeout : Int := 5000
def defaultRendezvousPercent : F32 := F32.fin 1

/-- The struct `Rendezvous` of `testcase_step.go`.  The declared fields are `Name`,
`Percent`, `Number` and `Timeout`.  The runtime fields are kept by what the
supervisor can observe of them: `wg` is the counter of the `sync.WaitGroup`,
`activateClosed` and `releaseClosed` tell whether the current `activateChan` and
`releaseChan` have been closed, and `generation` counts how many times the
channels have been replaced by fresh ones. -/
structure Rendezvous where
  Name : String
  Percent : F32 := F32.fin 0
  Number : Int := 0
  Timeout : Int := 0
  cnt : Int := 0
  releasedFlag : Nat := 0
  spawnDoneFlag : Nat := 0
  wg : Int := 0
  activateClosed : Bool := false
  releaseClosed : Bool := false
  generation : Nat := 0
  deriving DecidableEq

/-- The struct `ThinkTime`; the `float64` duration is kept as the rational it denotes. -/
structure ThinkTime where
  Time : ℚ
  deriving DecidableEq

/-- The struct `TStep` of `testcase_step.go`.  The fields `API` and `TestCase` hold loaded
references and are kept as `interface{}` values. -/
structure TStep where
  Name : String
  Request : Option Request := none
  API : Any := Any.null
  TestCase : Any := Any.null
  Transaction : Option Transaction := none
  Rendezvous : Option Rendezvous := none
  ThinkTime : Option ThinkTime := none
  Variables : Option (GoMap Any) := none
  SetupHooks : List String := []
  TeardownHooks : List String := []
  Extract : Option (GoMap String) := none
  Validators : List Validator := []
  Export : List String := []
  deriving DecidableEq

/-- The steps of a test case as `testcase.ToTCase()` hands them to
`initRendezvous` (`tCase.TestSteps`); `ToTCase` itself is not part of these
sources. -/
structure TCase where
  TestSteps : List TStep
  deriving DecidableEq

/-! ## `step_rendezvous.go`: normalisation -/

/-- Modelled from the spec: `Rendezvous.reset` is called by `initRendezvous` and
by the supervisor of the last barrier but is not part of these sources.  The
specification describes it as resetting the runtime state: "arrived=0,
activated=false, released=false, fresh signal endpoints, fresh pendingTracker
preloaded with requiredCount". -/
def Rendezvous.reset (r : Rendezvous) : Rendezvous :=
  { r with
    cnt := 0
    releasedFlag := 0
    wg := r.Number
    activateClosed := false
    releaseClosed := false
    generation := r.generation + 1 }

/-- Condition of the first branch of `initRendezvous`:
`rendezvous.Number == 0 && rendezvous.Percent > 0 && rendezvous.Percent <= defaultRendezvousPercent`. -/
def percentBranch (r : Rendezvous) : Bool :=
  decide (r.Number = 0) && F32.gt r.Percent (F32.fin 0) && F32.le r.Percent defaultRendezvousPercent

/-- Condition of the second branch of `initRendezvous`:
`rendezvous.Number > 0 && rendezvous.Number <= total && rendezvous.Percent == 0`. -/
def numberBranch (r : Rendezvous) (total : Int) : Bool :=
  decide (r.Number > 0) && decide (r.Number ≤ total) && F32.eq r.Percent (F32.fin 0)

/-- The number/percent normalisation of `initRendezvous` (the `if` / `else if` /
`else` of its loop body). -/
def normalizeQuorum (r : Rendezvous) (total : Int) : Rendezvous :=
  if percentBranch r then
    { r with Number := F32.toInt64 (F32.mul r.Percent (F32.ofInt total)) }
  else if numberBranch r total then
    { r with Percent := F32.div (F32.ofInt r.Number) (F32.ofInt total) }
  else
    { r with Number := total, Percent := defaultRendezvousPercent }

/-- The timeout normalisation of `initRendezvous`. -/
def normalizeTimeout (r : Rendezvous) : Rendezvous :=
  if r.Timeout ≤ 0 then { r with Timeout := defaultRendezvousTimeout } else r

/-- One pass of the loop body of `initRendezvous` over a declared rendezvous:
normalise number and percent, then the timeout, then `reset()`. -/
def normalize (r : Rendezvous) (total : Int) : Rendezvous :=
  (normalizeTimeout (normalizeQuorum r total)).reset

/-- The loop of `initRendezvous`.  A `*Rendezvous` is shared between its step
and the returned list, so the loop yields both the steps as it leaves them and
the list it has appended to (`acc` is `rendezvousList` so far). -/
def initRendezvousLoop : List TStep → Int → List Rendezvous → List TStep × List Rendezvous
  | [], _, acc => ([], acc)
  | step :: rest, total, acc =>
    match step.Rendezvous with
    | none =>
      let out := initRendezvousLoop rest total acc
      (step :: out.1, out.2)
    | some r =>
      let out := initRendezvousLoop rest total (acc ++ [normalize r total])
      ({ step with Rendezvous := some (normalize r total) } :: out.1, out.2)

/-- Go `initRendezvous(testcase, total)`: the test case as the call leaves it,
and the returned `rendezvousList` (`[]` stands for the nil slice). -/
def initRendezvous (tCase : TCase) (total : Int) : TCase × List Rendezvous :=
  let out := initRendezvousLoop tCase.TestSteps total []
  ({ TestSteps := out.1 }, out.2)

/-! ## `testcase_step.go` and `step_request.go`: step builders

Each builder type of the source wraps a pointer to the one `TStep` under
construction; here each wraps the `TStep` value and a method returns the
wrapper with the updated step.  A method that writes through `s.step.Request`
dereferences a pointer that may be nil: it yields `none` where Go panics. -/

structure StepRequest where
  step : TStep
  deriving DecidableEq

structure StepRequestWithOptionalArgs where
  step : TStep
  deriving DecidableEq

structure StepRequestValidation where
  step : TStep
  deriving DecidableEq

/-- Go `NewStep(name)`; `make(map[string]interface{})` is the empty, non-nil map. -/
def NewStep (name : String) : StepRequest :=
  { step := { Name := name, Variables := some [] } }

/-- Go `(*StepRequest).GET`. -/
def StepRequest.GET (s : StepRequest) (url : String) : StepRequestWithOptionalArgs :=
  { step := { s.step with Request := some { Method := httpGET, URL := url } } }

/-- Go `(*StepRequest).POST`. -/
def StepRequest.POST (s : StepRequest) (url : String) : StepRequestWithOptionalArgs :=
  { step := { s.step with Request := some { Method := httpPOST, URL := url } } }

/-- Go `(*StepRequestWithOptionalArgs).WithParams`. -/
def StepRequestWithOptionalArgs.WithParams (s : StepRequestWithOptionalArgs)
    (params : Option (GoMap Any)) : Option StepRequestWithOptionalArgs :=
  match s.step.Request with
  | none => none
  | some req => some { step := { s.step with Request := some { req with Params := params } } }

/-- Go `(*StepRequestWithOptionalArgs).WithHeaders`. -/
def StepRequestWithOptionalArgs.WithHeaders (s : StepRequestWithOptionalArgs)
    (headers : Option (GoMap String)) : Option StepRequestWithOptionalArgs :=
  match s.step.Request with
  | none => none
  | some req => some { step := { s.step with Request := some { req with Headers := headers } } }

/-- Go `(*StepRequestWithOptionalArgs).WithCookies`. -/
def StepRequestWithOptionalArgs.WithCookies (s : StepRequestWithOptionalArgs)
    (cookies : Option (GoMap String)) : Option StepRequestWithOptionalArgs :=
  match s.step.Request with
  | none => none
  | some req => some { step := { s.step with Request := some { req with Cookies := cookies } } }

/-- Go `(*StepRequestWithOptionalArgs).Validate`. -/
def StepRequestWithOptionalArgs.Validate (s : StepRequestWithOptionalArgs) :
    StepRequestValidation :=
  { step := s.step }

/-- Go `(*StepRequestValidation).AssertEqual`. -/
def StepRequestValidation.AssertEqual (s : StepRequestValidation) (jmesPath : String)
    (expected : Any) (msg : String) : StepRequestValidation :=
  let v : Validator := { Check := jmesPath, Assert := "equals", Expect := expected, Message := msg }
  { step := { s.step with Validators := s.step.Validators ++ [v] } }

/-- The chain `NewStep(name).GET(url).WithParams(params).WithHeaders(headers).
WithCookies(cookies).Validate().AssertEqual(check, expected, msg)`, with `POST`
for `GET` when `post` is set. -/
def requestChain (post : Bool) (name url : String) (params : Option (GoMap Any))
    (headers cookies : Option (GoMap String)) (check : String) (expected : Any)
    (msg : String) : Option StepRequestValidation :=
  let s0 := if post then (NewStep name).POST url else (NewStep name).GET url
  (((s0.WithParams params).bind (fun s => s.WithHeaders headers)).bind
    (fun s => s.WithCookies cookies)).map
    (fun s => s.Validate.AssertEqual check expected msg)

/-! ## `step_rendezvous.go`: the supervisor `waitSingleRendezvous`

One run of the body of the outer `for` of `waitSingleRendezvous` (one cycle) is
a state machine driven by what the blocking receives of the goroutine deliver.
`rendezvousList` is the shared list of barriers, `rendezvous` is its element of
index `i` and `lastRendezvous` its element of index `last`.  The fields of the
barriers are written by this supervisor only while the cycle runs. -/

/-- Modelled from the spec: `Rendezvous.isReleased` is not part of these sources;
the specification calls it the `released` flag, "true once the release
condition has fired in the current cycle".  The flag is the field `releasedFlag`. -/
def Rendezvous.isReleased (r : Rendezvous) : Bool := r.releasedFlag != 0

/-- Modelled from the spec: `Rendezvous.setReleased` is not part of these sources;
the specification's "mark released". -/
def Rendezvous.setReleased (r : Rendezvous) : Rendezvous := { r with releasedFlag := 1 }

/-- Go `close(rendezvous.releaseChan)`: closing a closed channel panics (`none`). -/
def Rendezvous.closeReleaseChan (r : Rendezvous) : Option Rendezvous :=
  if r.releaseClosed then none else some { r with releaseClosed := true }

/-- What a blocking receive of the supervisor delivers. -/
inductive Signal where
  /-- `<-rendezvous.activateChan` returns. -/
  | activate
  /-- `case <-rendezvous.timerResetChan` is taken. -/
  | timerReset
  /-- `case <-stop` is taken: `rendezvous.wg.Wait()` has returned. -/
  | stop
  /-- `case <-timer.C` is taken. -/
  | timer
  /-- `<-lastRendezvous.releaseChan` returns. -/
  | lastReleased
  deriving DecidableEq, Repr

/-- A delivery and the time, in nanoseconds, at which the supervisor takes it. -/
structure Event where
  time : Int
  sig : Signal
  deriving DecidableEq, Repr

/-- Where the supervisor is blocked. -/
inductive Loc where
  /-- At `<-rendezvous.activateChan`, the start of the cycle. -/
  | waitActivate
  /-- In the `select` of the inner loop. -/
  | select
  /-- At `<-lastRendezvous.releaseChan`, the end of the cycle of an earlier barrier. -/
  | waitLast
  /-- The cycle is over; the outer `for` starts the next one. -/
  | done
  /-- A `close` of a closed channel has panicked. -/
  | panicked
  deriving DecidableEq, Repr

/-- The `reason` of the two `log.Info()` calls: "rendezvous release condition
satisfied" for the `stop` branch and "time's up" for the `timer.C` branch. -/
inductive Reason where
  | quorum
  | timeout
  deriving DecidableEq, Repr

/-- One release as the supervisor performs and logs it: the branch, the time,
and the barrier as it is once `setReleased()` and `close(releaseChan)` are done. -/
structure Release where
  time : Int
  reason : Reason
  barrier : Rendezvous
  deriving DecidableEq

/-- State of one supervisor during a cycle: where it blocks, the time of the last
delivery, the shared barriers, the local variable `timeout`, the expiry time
of `timer` (`none` when no timer is pending), and the releases performed so far. -/
structure Supervisor where
  loc : Loc
  now : Int
  list : List Rendezvous
  timeout : Int
  deadline : Option Int
  released : List Release
  deriving DecidableEq

/-- Go `int64` arithmetic wraps around. -/
def wrapInt64 (n : Int) : Int := (n + 2 ^ 63) % 2 ^ 64 - 2 ^ 63

/-- Go `time.Millisecond`: a `time.Duration` counts nanoseconds in an `int64`. -/
def Millisecond : Int := 1000000

/-- The duration `time.Duration(rendezvous.Timeout) * time.Millisecond`. -/
def timeoutOf (i : Nat) (s : Supervisor) : Int :=
  match s.list[i]? with
  | some r => wrapInt64 (r.Timeout * Millisecond)
  | none => 0

/-- The test `for !rendezvous.isReleased()` and, when the loop is left, the end of
the cycle: the supervisor of the last barrier resets every barrier, any other
one goes on to wait for the release of the last barrier. -/
def loopHead (i last : Nat) (s : Supervisor) : Supervisor :=
  match s.list[i]? with
  | none => s
  | some r =>
    if r.isReleased then
      if i = last then { s with list := s.list.map Rendezvous.reset, loc := Loc.done }
      else { s with loc := Loc.waitLast }
    else { s with loc := Loc.select }

/-- The body shared by the `stop` and `timer.C` branches: `setReleased()`,
`close(releaseChan)`, the log record, then back to the loop test. -/
def releaseBranch (i last : Nat) (s : Supervisor) (reason : Reason) : Supervisor :=
  match s.list[i]? with
  | none => s
  | some r =>
    match r.setReleased.closeReleaseChan with
    | none => { s with list := s.list.set i r.setReleased, loc := Loc.panicked }
    | some r2 =>
      loopHead i last
        { s with list := s.list.set i r2, released := s.released ++ [⟨s.now, reason, r2⟩] }

/-- One delivery.  `none` when the supervisor is not blocked on it: a delivery
that lies in the past, a signal the current receive does not wait for, or
`timer.C` before the timer has expired.  `time.NewTimer(d)` and `timer.Reset(d)`
make the timer expire `d` after the call, at once when `d ≤ 0`. -/
def step (i last : Nat) (s : Supervisor) (e : Event) : Option Supervisor :=
  if e.time < s.now then none
  else
    let s1 := { s with now := e.time }
    match s.loc, e.sig with
    | Loc.waitActivate, Signal.activate =>
      some (loopHead i last
        { s1 with timeout := timeoutOf i s, deadline := some (e.time + timeoutOf i s) })
    | Loc.select, Signal.timerReset =>
      some (loopHead i last { s1 with deadline := some (e.time + s.timeout) })
    | Loc.select, Signal.stop => some (releaseBranch i last s1 Reason.quorum)
    | Loc.select, Signal.timer =>
      match s.deadline with
      | none => none
      | some d =>
        if d ≤ e.time then some (releaseBranch i last { s1 with deadline := none } Reason.timeout)
        else none
    | Loc.waitLast, Signal.lastReleased => some { s1 with loc := Loc.done }
    | _, _ => none

/-- A run of deliveries, `none` as soon as one of them is not enabled. -/
def run (i last : Nat) (s : Supervisor) : List Event → Option Supervisor
  | [] => some s
  | e :: es => (step i last s e).bind (fun s1 => run i last s1 es)

/-- The supervisor of barrier `i` at the start of a cycle at time `t0`. -/
def cycleStart (list : List Rendezvous) (t0 : Int) : Supervisor :=
  { loc := Loc.waitActivate, now := t0, list := list, timeout := 0, deadline := none,
    released := [] }

/-- The time and the branch of the release a delivery performs, if it is the
delivery of a release branch. -/
def releaseOf (e : Event) : Option (Int × Reason) :=
  match e.sig with
  | Signal.stop => some (e.time, Reason.quorum)
  | Signal.timer => some (e.time, Reason.timeout)
  | _ => none

/-- Time of the last arrival the supervisor has observed in a run: the last
activation or progress signal. -/
def lastProgress : List Event → Option Int
  | [] => none
  | e :: es =>
    match lastProgress es with
    | some t => some t
    | none => if e.sig = Signal.activate ∨ e.sig = Signal.timerReset then some e.time else none

/-- Barrier of `total = 10` users with `number = 10` and `timeout = 200`, as
`initRendezvous` leaves it. -/
def barrier200 : Rendezvous :=
  normalize { Name := "rendezvous", Number := 10, Timeout := 200 } 10

/-- A delivery at `t` milliseconds. -/
def atMs (t : Int) (sig : Signal) : Event := ⟨t * Millisecond, sig⟩

/-- The deliveries of the scenario "one arrival every 100 ms for 9 users": the
activation and nine progress signals, then the timer. -/
def slowRamp : List Event :=
  [atMs 100 Signal.activate, atMs 100 Signal.timerReset, atMs 200 Signal.timerReset,
   atMs 300 Signal.timerReset, atMs 400 Signal.timerReset, atMs 500 Signal.timerReset,
   atMs 600 Signal.timerReset, atMs 700 Signal.timerReset, atMs 800 Signal.timerReset,
   atMs 900 Signal.timerReset, atMs 1100 Signal.timer]

/-- The state in which the cycle of `slowRamp` ends for a group made of `barrier200`
alone: the timer branch has released the barrier at 1100 ms, 200 ms after the
ninth arrival, and the supervisor, being the last one, has reset the barrier. -/
def slowRampEnd : Supervisor :=
  { loc := Loc.done
    now := 1100 * Millisecond
    list := [{ barrier200 with generation := 2 }]
    timeout := 200 * Millisecond
    deadline := none
    released :=
      [⟨1100 * Millisecond, Reason.timeout,
        { barrier200 with releasedFlag := 1, releaseClosed := true }⟩] }

/-- Barrier with `timeout = 9223372036855`, about 292 years in milliseconds: the
duration in nanoseconds no longer fits an `int64`. -/
def barrierHuge : Rendezvous :=
  normalize { Name := "rendezvous", Number := 10, Timeout := 9223372036855 } 10

/-- An activation and one progress signal at time 0, and `timer.C` one nanosecond
later. -/
def hugeRun : List Event :=
  [⟨0, Signal.activate⟩, ⟨0, Signal.timerReset⟩, ⟨1, Signal.timer⟩]

/-- Barrier of `total = 10` users with `number = 5` and `timeout = 60000`, as
`initRendezvous` leaves it. -/
def barrier5 : Rendezvous :=
  normalize { Name := "rendezvous", Number := 5, Timeout := 60000 } 10

/-- The deliveries of the scenario "quorum release": the activation, five
progress signals, then `stop`. -/
def quorumRun : List Event :=
  [atMs 0 Signal.activate, atMs 0 Signal.timerReset, atMs 1 Signal.timerReset,
   atMs 2 Signal.timerReset, atMs 3 Signal.timerReset, atMs 4 Signal.timerReset,
   atMs 4 Signal.stop]

/-- The state in which the cycle of `quorumRun` ends for the first barrier of a
group of two: released through the `stop` branch at 4 ms, the supervisor waits
for the last barrier. -/
def quorumRunEnd : Supervisor :=
  { loc := Loc.waitLast
    now := 4 * Millisecond
    list := [{ barrier5 with releasedFlag := 1, releaseClosed := true }, barrier200]
    timeout := 60000 * Millisecond
    deadline := some (60004 * Millisecond)
    released :=
      [⟨4 * Millisecond, Reason.quorum,
        { barrier5 with releasedFlag := 1, releaseClosed := true }⟩] }

/-- What holds of a supervisor of barrier `i` after the deliveries `evs` of a
cycle, `T` being the barrier's `Timeout`: the releases logged are the release
branches taken, each logged barrier is marked released with its channel closed,
and while the supervisor is in the `select` nothing is released and the timer
expires the duration `timeout` after the last observed arrival. -/
structure CycleInv (i last : Nat) (T : Int) (evs : List Event) (s : Supervisor) : Prop where
  timeout : s.list[i]?.map (fun r => r.Timeout) = some T
  noPanic : s.loc ≠ Loc.panicked
  log : s.released.map (fun r => (r.time, r.reason)) = evs.filterMap releaseOf
  marked : ∀ rel ∈ s.released, rel.barrier.isReleased = true ∧ rel.barrier.releaseClosed = true
  atStart : s.loc = Loc.waitActivate →
    evs = [] ∧ s.released = [] ∧
      ∃ r, s.list[i]? = some r ∧ r.isReleased = false ∧ r.releaseClosed = false
  inSelect : s.loc = Loc.select →
    s.released = [] ∧
      (∃ r, s.list[i]? = some r ∧ r.isReleased = false ∧ r.releaseClosed = false) ∧
      s.timeout = wrapInt64 (T * Millisecond) ∧
      ∃ tp, lastProgress evs = some tp ∧ s.deadline = some (tp + wrapInt64 (T * Millisecond))
  after : s.loc = Loc.waitLast ∨ s.loc = Loc.done → s.released.length = 1
  waiting : s.loc = Loc.waitLast →
    i ≠ last ∧ ∃ r, s.list[i]? = some r ∧ r.isReleased = true ∧ r.releaseClosed = true

/-! ## Vocabulary of the statements -/

/-- A declaration as the spec admits it: `number ≥ 0` and a finite `percent` in `[0, 1]`. -/
def validDecl (r : Rendezvous) : Prop :=
  0 ≤ r.Number ∧ ∃ p : ℚ, r.Percent = F32.fin p ∧ 0 ≤ p ∧ p ≤ 1

/-- A test case of one step that declares the rendezvous `r`. -/
def caseOf (r : Rendezvous) : TCase :=
  { TestSteps := [{ Name := "step", Rendezvous := some r }] }

/-- The `float32` nearest to `0.3`, which is what the Go constant `0.3` denotes:
`10066330 * 2^-25`. -/
def f32_0_3 : ℚ := 5033165 / 16777216

/-- Declaration `{number: 0, percent: 0.3, timeout: 0}`. -/
def declPercent : Rendezvous := { Name := "rendezvous", Percent := F32.fin f32_0_3 }

/-- Declaration `{number: 0, percent: 1.0, timeout: 0}`. -/
def declFull : Rendezvous := { Name := "rendezvous", Percent := F32.fin 1 }

/-- Declaration `{number: 5, percent: 0, timeout: 0}`. -/
def declNumber : Rendezvous := { Name := "rendezvous", Number := 5 }

/-- Declaration `{number: 999, percent: 0, timeout: -1}`. -/
def declBad : Rendezvous := { Name := "rendezvous", Number := 999, Timeout := -1 }


/-! ## `step_rendezvous.go`: `waitRendezvous` and the outer loop -/

/-- A Go slice as far as `nil` matters: `none` is the nil slice, `some []` an empty
slice that is not nil. -/
abbrev Slice (α : Type) := Option (List α)

/-- Go `append(s, x)`: appending to the nil slice yields a slice that is not nil. -/
def Slice.append {α : Type} (s : Slice α) (x : α) : Slice α :=
  match s with
  | none => some [x]
  | some l => some (l ++ [x])

/-- The variable `rendezvousList` of `initRendezvous` along its loop, as a Go
slice: `acc` is its value so far, `nil` after `var rendezvousList []*Rendezvous`. -/
def rendezvousSliceLoop : List TStep → Int → Slice Rendezvous → Slice Rendezvous
  | [], _, acc => acc
  | step :: rest, total, acc =>
    match step.Rendezvous with
    | none => rendezvousSliceLoop rest total acc
    | some r => rendezvousSliceLoop rest total (acc.append (normalize r total))

/-- The slice `initRendezvous(testcase, total)` returns. -/
def initRendezvousSlice (tCase : TCase) (total : Int) : Slice Rendezvous :=
  rendezvousSliceLoop tCase.TestSteps total none

/-- Go `waitRendezvous(rendezvousList)`: the supervisors it starts, each given as
the index of its `rendezvous` and the index of `lastRendezvous`, in the order of
the `go` statements.  `none` when `rendezvousList[len(rendezvousList)-1]` panics
with an index out of range. -/
def waitRendezvous (rendezvousList : Slice Rendezvous) : Option (List (Nat × Nat)) :=
  match rendezvousList with
  | none => some []
  | some l =>
    if l.length = 0 then none
    else some ((List.range l.length).map (fun i => (i, l.length - 1)))

/-- The outer `for` of `waitSingleRendezvous`: once a cycle is over the
supervisor is back at `<-rendezvous.activateChan`; the timer of the finished
cycle is no longer looked at. -/
def restart (s : Supervisor) : Supervisor :=
  if s.loc = Loc.done then { s with loc := Loc.waitActivate, deadline := none } else s

/-! ## `summary.go` -/

/-- The struct `testCaseStat`.  Go `int` is taken to be 64 bits wide. -/
structure testCaseStat where
  Total : Int := 0
  Success : Int := 0
  Fail : Int := 0
  deriving DecidableEq

/-- The struct `testStepStat`. -/
structure testStepStat where
  Total : Int := 0
  Successes : Int := 0
  Failures : Int := 0
  deriving DecidableEq

/-- The struct `stat`. -/
structure stat where
  TestCases : testCaseStat := {}
  TestSteps : testStepStat := {}
  deriving DecidableEq

/-- The struct `testCaseTime`: `StartAt` is kept as a number of nanoseconds and the
`float64` `Duration` as the rational it denotes. -/
structure testCaseTime where
  StartAt : Int := 0
  Duration : ℚ := 0
  deriving DecidableEq

/-- The struct `platform`. -/
structure platform where
  HttprunnerVersion : String
  GoVersion : String
  Platform : String
  deriving DecidableEq

/-- The struct `testCaseInOut`. -/
structure testCaseInOut where
  ConfigVars : Option (GoMap Any) := none
  ExportVars : Option (GoMap Any) := none
  deriving DecidableEq

/-- The struct `stepData`; `stepType` is a Go string type. -/
structure stepData where
  Name : String
  StepType : String
  Success : Bool
  Elapsed : Int
  Data : Any
  ContentSize : Int
  ExportVars : Option (GoMap Any)
  Attachment : String
  deriving DecidableEq

/-- The struct `testCaseSummary`; a pointer field is `none` when it is nil. -/
structure testCaseSummary where
  Name : String := ""
  Success : Bool := false
  CaseId : String := ""
  Stat : Option testStepStat := none
  Time : Option testCaseTime := none
  InOut : Option testCaseInOut := none
  Log : String := ""
  Records : List (Option stepData) := []
  deriving DecidableEq

/-- The struct `Summary`; a pointer field is `none` when it is nil.  `Details`
holds the pointers handed to `appendCaseSummary`, here the summaries they
point to. -/
structure Summary where
  Success : Bool
  Stat : Option stat
  Time : Option testCaseTime
  Platform : Option platform
  Details : List testCaseSummary := []
  deriving DecidableEq

/-- Go `newOutSummary()`.  What it reads from its environment is given:
`version.VERSION`, `runtime.Version()`, the formatted `GOOS-GOARCH` and
`time.Now()`. -/
def newOutSummary (version goVersion osArch : String) (now : Int) : Summary :=
  { Success := true
    Stat := some {}
    Time := some { StartAt := now }
    Platform := some { HttprunnerVersion := version, GoVersion := goVersion, Platform := osArch } }

/-- Go `newSummary()`. -/
def newSummary : testCaseSummary :=
  { Success := true, Stat := some {}, Time := some {}, InOut := some {} }

/-- Go `(*Summary).appendCaseSummary`, for pointers `s` and `caseSummary` that
are not nil.  `none` when `s.Stat` or `caseSummary.Stat` is nil and the
dereference panics.  Additions are those of Go's `int` and wrap around. -/
def Summary.appendCaseSummary (s : Summary) (caseSummary : testCaseSummary) : Option Summary :=
  let success1 := s.Success && caseSummary.Success
  match s.Stat with
  | none => none
  | some st =>
    let casesTotal := wrapInt64 (st.TestCases.Total + 1)
    let stepsTotal := wrapInt64 (st.TestSteps.Total + (caseSummary.Records.length : Int))
    let casesSuccess :=
      if caseSummary.Success then wrapInt64 (st.TestCases.Success + 1) else st.TestCases.Success
    let casesFail :=
      if caseSummary.Success then st.TestCases.Fail else wrapInt64 (st.TestCases.Fail + 1)
    match caseSummary.Stat with
    | none => none
    | some cs =>
      some
        { s with
          Success := success1 && caseSummary.Success
          Stat := some
            { TestCases := { Total := casesTotal, Success := casesSuccess, Fail := casesFail }
              TestSteps :=
                { Total := stepsTotal
                  Successes := wrapInt64 (st.TestSteps.Successes + cs.Successes)
                  Failures := wrapInt64 (st.TestSteps.Failures + cs.Failures) } }
          Details := s.Details ++ [caseSummary] }

/-- A sequence of `appendCaseSummary` calls on the same summary. -/
def appendAll (s : Summary) : List testCaseSummary → Option Summary
  | [] => some s
  | c :: cs => (s.appendCaseSummary c).bind (fun s1 => appendAll s1 cs)

/-- Sum of a field of the step statistics of the summaries, nil statistics
counting for nothing. -/
def sumStat (f : testStepStat → Int) (cases : List testCaseSummary) : Int :=
  (cases.map (fun c => match c.Stat with
    | some st => f st
    | none => 0)).sum

/-- Sum of `len(Records)` over the summaries. -/
def sumRecords (cases : List testCaseSummary) : Int :=
  (cases.map (fun c => (c.Records.length : Int))).sum

/-- A value of Go's 64-bit `int`. -/
def inInt64 (n : Int) : Prop := -2 ^ 63 ≤ n ∧ n < 2 ^ 63

/-- Number of successful case summaries. -/
def countSuccess (cases : List testCaseSummary) : Int :=
  ((cases.filter (fun c => c.Success)).length : Int)

/-- Number of failed case summaries. -/
def countFail (cases : List testCaseSummary) : Int :=
  ((cases.filter (fun c => !c.Success)).length : Int)

/-- Three case summaries: two successful ones and a failed one in between. -/
def sampleCases : List testCaseSummary :=
  [{ Name := "a", Success := true, Stat := some ⟨2, 2, 0⟩, Records := [none, none] },
   { Name := "b", Success := false, Stat := some ⟨3, 1, 2⟩, Records := [none, none, none] },
   { Name := "c", Success := true, Stat := some ⟨1, 1, 0⟩, Records := [none] }]

/-- Two barriers of one group, as `initRendezvous` leaves them. -/
def twoBarriers : List Rendezvous := [barrier5, barrier200]

/-- The barrier `r` once a release branch has run on it: `setReleased()` and
`close(releaseChan)`. -/
def Rendezvous.released (r : Rendezvous) : Rendezvous :=
  { r.setReleased with releaseClosed := true }

/-- The shape of a cycle of the supervisor of barrier `i`, started on the group
`list` whose barrier `i` is `r`, after the deliveries `evs`: before the
activation nothing has happened; afterwards the first delivery was the
activation and every release comes after it; the group is untouched until the
release, after which barrier `i` alone is changed, unless the supervisor is the
last one, which ends its cycle with every barrier reset; and an earlier
supervisor ends its cycle on the delivery of the last barrier's release. -/
structure CycleShape (i last : Nat) (list : List Rendezvous) (r : Rendezvous)
    (evs : List Event) (s : Supervisor) : Prop where
  start : s.loc = Loc.waitActivate →
    evs = [] ∧ s.deadline = none ∧ s.released = [] ∧ s.list = list
  first : s.loc ≠ Loc.waitActivate →
    ∃ t rest, evs = ⟨t, Signal.activate⟩ :: rest ∧ t ≤ s.now ∧
      ∀ rel ∈ s.released, t ≤ rel.time
  inLoop : s.loc = Loc.select → s.list = list
  waiting : s.loc = Loc.waitLast → i ≠ last ∧ s.list = list.set i r.released
  finished : s.loc = Loc.done →
    (i = last ∧ s.list = (list.set i r.released).map Rendezvous.reset) ∨
    (i ≠ last ∧ s.list = list.set i r.released ∧
      ∃ pre t, evs = pre ++ [⟨t, Signal.lastReleased⟩])

/-- The cycle of `quorumRun` followed by the release of the last barrier at 9 ms. -/
def pipelineRun : List Event := quorumRun ++ [atMs 9 Signal.lastReleased]

/-- The state in which `pipelineRun` ends for the first barrier of `twoBarriers`:
its cycle is over, its own barrier is released and nothing has been reset. -/
def pipelineRunEnd : Supervisor :=
  { loc := Loc.done
    now := 9 * Millisecond
    list := [barrier5.released, barrier200]
    timeout := 60000 * Millisecond
    deadline := some (60004 * Millisecond)
    released := [⟨4 * Millisecond, Reason.quorum, barrier5.released⟩] }

/-! ## `step_rendezvous.go`: the outer loop of `waitSingleRendezvous` among the
other goroutines

The supervisor of a barrier shares the group with the arriving users and with
the supervisor of the last barrier.  Between two of its own steps those may
write to the group, so the loop is followed statement by statement where that
matters: the receive of line 103 with the timer and the waiter of lines 104-110
is one step, the loop test of line 111 is the next one. -/

/-- Modelled from the spec: the arrival of a virtual user is not part of these
sources.  The specification (§4.2) has it increment `arrived`, emit the
activation signal when this is the first arrival of the cycle, and decrement
the pending tracker. -/
def Rendezvous.arrive (r : Rendezvous) : Rendezvous :=
  { r with
    cnt := r.cnt + 1
    activateClosed := r.activateClosed || decide (r.cnt = 0)
    wg := r.wg - 1 }

/-- A supervisor inside its `for` loop, together with what the other goroutines
hold for it: `pending` is set between the receive of line 103 and the loop test
of line 111; `stopClosed` tells whether the waiter of lines 107-110 has closed
the current `stop` channel; `progress` whether a value sits in `timerResetChan`;
`cycles` counts the completed iterations of the outer `for`; `cancelled` records
that the runner has asked the coordinator to stop, a request for which
`waitSingleRendezvous` has neither a parameter nor a receive. -/
structure Loop where
  sup : Supervisor
  pending : Bool
  stopClosed : Bool
  progress : Bool
  cycles : Nat
  cancelled : Bool
  deriving DecidableEq

/-- What can happen next to a supervisor and the group it looks at. -/
inductive Delivery where
  /-- A user arrives at the supervisor's barrier. -/
  | arrive
  /-- The waiter of lines 107-110 returns from `wg.Wait()` and closes `stop`. -/
  | waitDone
  /-- A blocking receive of the supervisor returns. -/
  | signal (e : Event)
  /-- The supervisor goes from line 110 to the loop test of line 111. -/
  | resume
  /-- The supervisor of the last barrier runs a release branch (lines 116-117 or
  127-128). -/
  | lastRelease
  /-- The supervisor of the last barrier runs `r.reset()` on barrier `j` in its
  loop of lines 141-144. -/
  | reset (j : Nat)
  /-- The runner asks the coordinator to stop. -/
  | cancel
  deriving DecidableEq

/-- Whether the channel a receive waits on can deliver: `activateChan` and
`releaseChan` of the last barrier once closed, `stop` once the waiter has closed
it, `timerResetChan` when it holds a value.  The expiry of the timer is checked
by `step`. -/
def signalReady (i last : Nat) (w : Loop) : Signal → Bool
  | Signal.activate =>
    match w.sup.list[i]? with
    | some r => r.activateClosed
    | none => false
  | Signal.timerReset => w.progress
  | Signal.stop => w.stopClosed
  | Signal.timer => true
  | Signal.lastReleased =>
    match w.sup.list[last]? with
    | some r => r.releaseClosed
    | none => false

/-- The supervisor after one of its own steps has left it in `s`: at the end of
an iteration of the outer `for` it is back at line 103.  The last supervisor
has then reset the group, which leaves its `timerResetChan` empty. -/
def endOfStep (i last : Nat) (w : Loop) (s : Supervisor) : Loop :=
  if s.loc = Loc.done then
    { w with
      sup := restart s
      pending := false
      progress := if i = last then false else w.progress
      cycles := w.cycles + 1 }
  else { w with sup := s, pending := false }

/-- One step of the supervisor of barrier `i` or of its surroundings; `none` when
the step is not enabled.  An arrival writes the barrier and leaves a value in
`timerResetChan`.  The waiter closes `stop` when the counter of `wg` is zero.  A
receive returns only when the supervisor is blocked on it and its channel can
deliver; the receive of line 103 takes the supervisor through lines 104-110,
where it makes a new `stop` channel and starts the timer, and the other
receives are those of `step`.  The loop test of line 111 and what follows it is
`loopHead`.  The release and the resets of the last supervisor are steps of the
surroundings unless the supervisor is itself the last one, whose own release and
reset are part of `step` and `loopHead`; a reset happens while the last barrier
is released, which it is until its own reset at the end of the loop of lines
141-144, and leaves the barrier with an empty `timerResetChan`.  A request to
stop is recorded and read by nothing. -/
def superviseStep (i last : Nat) (w : Loop) : Delivery → Option Loop
  | Delivery.arrive =>
    match w.sup.list[i]? with
    | none => none
    | some r =>
      some { w with sup := { w.sup with list := w.sup.list.set i r.arrive }, progress := true }
  | Delivery.waitDone =>
    match w.sup.list[i]? with
    | none => none
    | some r => if r.wg = 0 then some { w with stopClosed := true } else none
  | Delivery.signal e =>
    if w.pending || !signalReady i last w e.sig then none
    else if w.sup.loc = Loc.waitActivate ∧ e.sig = Signal.activate then
      if e.time < w.sup.now then none
      else
        some { w with
          sup := { w.sup with
            now := e.time
            timeout := timeoutOf i w.sup
            deadline := some (e.time + timeoutOf i w.sup) }
          pending := true
          stopClosed := false }
    else
      (step i last w.sup e).map
        (fun s => endOfStep i last (if e.sig = Signal.timerReset then { w with progress := false } else w) s)
  | Delivery.resume =>
    if w.pending then some (endOfStep i last w (loopHead i last w.sup)) else none
  | Delivery.lastRelease =>
    if i = last then none
    else
      match w.sup.list[last]? with
      | none => none
      | some b =>
        if b.isReleased then none
        else some { w with sup := { w.sup with list := w.sup.list.set last b.released } }
  | Delivery.reset j =>
    if i = last then none
    else
      match w.sup.list[last]?, w.sup.list[j]? with
      | some b, some r =>
        if b.isReleased then
          some { w with
            sup := { w.sup with list := w.sup.list.set j r.reset }
            progress := if j = i then false else w.progress }
        else none
      | _, _ => none
  | Delivery.cancel => some { w with cancelled := true }

/-- A run of steps, `none` as soon as one of them is not enabled. -/
def supervise (i last : Nat) (w : Loop) : List Delivery → Option Loop
  | [] => some w
  | d :: ds => (superviseStep i last w d).bind (fun w1 => supervise i last w1 ds)

/-- The supervisor as `waitRendezvous` starts it at time `t0` on the group
`list`. -/
def loopStart (list : List Rendezvous) (t0 : Int) : Loop :=
  { sup := cycleStart list t0, pending := false, stopClosed := false, progress := false,
    cycles := 0, cancelled := false }

/-- A scenario of two steps, each with a rendezvous of one user. -/
def stagedCase : TCase :=
  { TestSteps :=
      [{ Name := "login", Rendezvous := some { Name := "A", Number := 1, Timeout := 200 } },
       { Name := "pay", Rendezvous := some { Name := "B", Number := 1, Timeout := 200 } }] }

/-- The group `initRendezvous` makes of `stagedCase` for two users. -/
def stagedGroup : List Rendezvous := (initRendezvous stagedCase 2).2

/-- A delivery of `sig` to the supervisor at `t` milliseconds. -/
def sigMs (t : Int) (sig : Signal) : Delivery := Delivery.signal (atMs t sig)

/-- The first barrier of `stagedGroup`. -/
def barrierA : Rendezvous := normalize { Name := "A", Number := 1, Timeout := 200 } 2

/-- The last barrier of `stagedGroup`. -/
def barrierB : Rendezvous := normalize { Name := "B", Number := 1, Timeout := 200 } 2

/-- One full iteration of the supervisor of the first barrier of `stagedGroup`:
a user arrives, the supervisor takes the activation and enters the `select`,
the waiter closes `stop`, the supervisor releases its barrier and goes to line
146; the last supervisor releases the last barrier, which lets the supervisor
leave line 146, one millisecond later.  The last supervisor has not yet reset
the group. -/
def firstIteration : List Delivery :=
  [Delivery.arrive, sigMs 0 Signal.activate, Delivery.resume, Delivery.waitDone,
   sigMs 0 Signal.stop, Delivery.lastRelease, sigMs 1 Signal.lastReleased]

/-- The state in which `firstIteration` ends: the supervisor is back at line
103, both barriers are released and nothing has been reset. -/
def firstIterationEnd : Loop :=
  { sup :=
      { loc := Loc.waitActivate
        now := 1 * Millisecond
        list := [barrierA.arrive.released, barrierB.released]
        timeout := 200 * Millisecond
        deadline := none
        released := [⟨0, Reason.quorum, barrierA.arrive.released⟩] }
    pending := false
    stopClosed := true
    progress := true
    cycles := 1
    cancelled := false }

/-- A second iteration before the group reset: the receive of line 103 returns
on the channel the first arrival has closed, the loop test finds the barrier
still released, and line 146 returns on the channel the last supervisor has
closed. -/
def staleIteration : List Delivery :=
  [sigMs 1 Signal.activate, Delivery.resume, sigMs 1 Signal.lastReleased]

/-- The state in which `staleIteration` ends when it follows `firstIteration`. -/
def staleIterationEnd : Loop :=
  { firstIterationEnd with stopClosed := false, cycles := 2 }

/-- The receive of line 103 returns on the channel the first arrival has closed
and the timer is started; only then does the last supervisor reset the group,
barrier after barrier. -/
def lateReset : List Delivery :=
  [sigMs 1 Signal.activate, Delivery.reset 0, Delivery.reset 1]

/-- The state in which `lateReset` ends when it follows `firstIteration`: the
timer runs, on a group that has just been reset. -/
def lateResetEnd : Loop :=
  { sup :=
      { loc := Loc.waitActivate
        now := 1 * Millisecond
        list := [barrierA.reset, barrierB.reset]
        timeout := 200 * Millisecond
        deadline := some (201 * Millisecond)
        released := [⟨0, Reason.quorum, barrierA.arrive.released⟩] }
    pending := true
    stopClosed := false
    progress := false
    cycles := 1
    cancelled := false }

/-- After `lateReset` the loop test finds the barrier not released, and the
timer expires 200 ms after it was started. -/
def lateExpiry : List Delivery := [Delivery.resume, sigMs 201 Signal.timer]

/-- The state in which `lateExpiry` ends when it follows `firstIteration` and
`lateReset`: the barrier has been released a second time. -/
def lateExpiryEnd : Loop :=
  { sup :=
      { loc := Loc.waitLast
        now := 201 * Millisecond
        list := [barrierA.reset.released, barrierB.reset]
        timeout := 200 * Millisecond
        deadline := none
        released :=
          [⟨0, Reason.quorum, barrierA.arrive.released⟩,
           ⟨201 * Millisecond, Reason.timeout, barrierA.reset.released⟩] }
    pending := false
    stopClosed := false
    progress := false
    cycles := 1
    cancelled := false }

/-- Declaration `{number: 16777217, percent: 0, timeout: 0}`. -/
def declWide : Rendezvous := { Name := "rendezvous", Number := 16777217 }

/-- A second cycle after the group reset: the last supervisor resets the group,
a user arrives, the supervisor takes the activation, enters the `select`, takes
the progress signal of the arrival, and releases its barrier through the `stop`
branch once the waiter has closed `stop`. -/
def secondCycle : List Delivery :=
  [Delivery.reset 0, Delivery.reset 1, Delivery.arrive, sigMs 2 Signal.activate, Delivery.resume,
   sigMs 2 Signal.timerReset, Delivery.waitDone, sigMs 3 Signal.stop]

/-- The state in which `secondCycle` ends when it follows `firstIteration`. -/
def secondCycleEnd : Loop :=
  { sup :=
      { loc := Loc.waitLast
        now := 3 * Millisecond
        list := [barrierA.reset.arrive.released, barrierB.reset]
        timeout := 200 * Millisecond
        deadline := some (202 * Millisecond)
        released :=
          [⟨0, Reason.quorum, barrierA.arrive.released⟩,
           ⟨3 * Millisecond, Reason.quorum, barrierA.reset.arrive.released⟩] }
    pending := false
    stopClosed := true
    progress := false
    cycles := 1
    cancelled := false }
/-! ## Lemmas on the binary32 rounding -/

namespace F32

theorem log2Fuel_spec : ∀ (fuel n : Nat), n ≤ fuel → n ≠ 0 →
    2 ^ log2Fuel fuel n ≤ n ∧ n < 2 ^ (log2Fuel fuel n + 1)
  | 0, n, h, h0 => absurd (Nat.le_zero.mp h) h0
  | fuel + 1, n, h, h0 => by
    unfold log2Fuel
    split
    · omega
    · have h2 : 2 ≤ n := by omega
      have ih := log2Fuel_spec fuel (n / 2) (by omega) (by omega)
      obtain ⟨ih1, ih2⟩ := ih
      constructor
      · rw [pow_succ]; omega
      · rw [pow_succ]; omega

theorem natLog2_spec (n : Nat) (h0 : n ≠ 0) :
    2 ^ natLog2 n ≤ n ∧ n < 2 ^ (natLog2 n + 1) :=
  log2Fuel_spec n n le_rfl h0

theorem ilog2_spec (q : ℚ) (hq : q ≠ 0) :
    (2 : ℚ) ^ ilog2 q ≤ |q| ∧ |q| < (2 : ℚ) ^ (ilog2 q + 1) := by
  have hnum : q.num.natAbs ≠ 0 := by
    simpa [Int.natAbs_eq_zero] using hq
  have hden : q.den ≠ 0 := q.den_nz
  obtain ⟨a1, a2⟩ := natLog2_spec _ hnum
  obtain ⟨b1, b2⟩ := natLog2_spec _ hden
  have habs : |q| = (q.num.natAbs : ℚ) / (q.den : ℚ) := by
    have := Rat.num_div_den q
    conv_lhs => rw [← this]
    rw [abs_div, Nat.abs_cast, Nat.cast_natAbs, Int.cast_abs]
  set a := q.num.natAbs
  set b := q.den
  set la := natLog2 a
  set lb := natLog2 b
  have hbpos : (0 : ℚ) < b := by positivity
  have a1q : (2 : ℚ) ^ la ≤ a := by exact_mod_cast a1
  have a2q : (a : ℚ) < 2 ^ (la + 1) := by exact_mod_cast a2
  have b1q : (2 : ℚ) ^ lb ≤ b := by exact_mod_cast b1
  have b2q : (b : ℚ) < 2 ^ (lb + 1) := by exact_mod_cast b2
  have two : (0 : ℚ) < 2 := by norm_num
  unfold ilog2
  simp only
  split
  · rename_i h
    refine ⟨h, ?_⟩
    rw [habs, div_lt_iff₀ hbpos]
    calc (a : ℚ) < 2 ^ (la + 1) := a2q
      _ = 2 ^ ((la : ℤ) - lb + 1) * 2 ^ lb := by
        rw [← zpow_natCast, ← zpow_natCast, ← zpow_add₀ two.ne']; congr 1; push_cast; ring
      _ ≤ 2 ^ ((la : ℤ) - lb + 1) * b := by
        apply mul_le_mul_of_nonneg_left b1q; positivity
  · rename_i h
    push_neg at h
    constructor
    · rw [habs, le_div_iff₀ hbpos]
      calc (2 : ℚ) ^ ((la : ℤ) - lb - 1) * b ≤ 2 ^ ((la : ℤ) - lb - 1) * 2 ^ (lb + 1) := by
            apply mul_le_mul_of_nonneg_left b2q.le; positivity
        _ = 2 ^ la := by
          rw [← zpow_natCast, ← zpow_natCast, ← zpow_add₀ two.ne']; congr 1; push_cast; ring
        _ ≤ a := a1q
    · simpa using h

/-- The exponent that fixes the spacing around `q`. -/
theorem ulp_eq (q : ℚ) : ulp q = (2 : ℚ) ^ (max (ilog2 q) (-126) - 23) := rfl

theorem ulp_pos (q : ℚ) : 0 < ulp q := by
  unfold ulp; positivity

theorem rne_le_of_le (x : ℚ) (k : ℤ) (h : x ≤ k) : rne x ≤ k := by
  have hf : ⌊x⌋ ≤ k := by
    have := Int.floor_le x
    exact_mod_cast (Int.floor_le x).trans h |> fun h' => (Int.cast_le (R := ℚ)).mp h'
  have hfx : (⌊x⌋ : ℚ) ≤ x := Int.floor_le x
  have step : (1 : ℚ) / 2 ≤ x - ⌊x⌋ → ⌊x⌋ + 1 ≤ k := by
    intro hr
    have : (⌊x⌋ : ℚ) < k := by linarith
    have : ⌊x⌋ < k := by exact_mod_cast this
    omega
  unfold rne
  simp only
  split_ifs with h1 h2 h3
  · exact hf
  · exact step h2.le
  · exact hf
  · exact step (not_lt.mp h1)

theorem le_rne_of_le (x : ℚ) (k : ℤ) (h : (k : ℚ) ≤ x) : k ≤ rne x := by
  have hf : k ≤ ⌊x⌋ := Int.le_floor.mpr h
  unfold rne
  simp only
  split_ifs <;> omega

theorem rne_intCast (k : ℤ) : rne (k : ℚ) = k :=
  le_antisymm (rne_le_of_le _ k le_rfl) (le_rne_of_le _ k le_rfl)

theorem rne_mono {x y : ℚ} (h : x ≤ y) : rne x ≤ rne y := by
  have hxy : ⌊x⌋ ≤ ⌊y⌋ := Int.floor_mono h
  rcases hxy.lt_or_eq with hlt | heq
  · have h1 : rne x ≤ ⌊x⌋ + 1 := by
      apply rne_le_of_le
      push_cast
      exact (Int.lt_floor_add_one x).le
    have h2 : ⌊y⌋ ≤ rne y := le_rne_of_le _ _ (Int.floor_le y)
    omega
  · unfold rne
    simp only
    rw [heq]
    have hd : x - ⌊y⌋ ≤ y - ⌊y⌋ := by linarith
    split_ifs <;> first | omega | (exfalso; linarith)

theorem roundQ_of_ne (q : ℚ) (hq : q ≠ 0) : roundQ q = (rne (q / ulp q) : ℚ) * ulp q := by
  unfold roundQ; rw [if_neg hq]

theorem roundQ_le_of_grid (q : ℚ) (k : ℤ) (h : q ≤ k * ulp q) : roundQ q ≤ k * ulp q := by
  by_cases hq : q = 0
  · subst hq; simpa [roundQ] using h
  · rw [roundQ_of_ne q hq]
    have hu := ulp_pos q
    have : rne (q / ulp q) ≤ k := rne_le_of_le _ _ (by rwa [div_le_iff₀ hu])
    have : (rne (q / ulp q) : ℚ) ≤ k := by exact_mod_cast this
    exact mul_le_mul_of_nonneg_right this hu.le

theorem le_roundQ_of_grid (q : ℚ) (k : ℤ) (h : (k : ℚ) * ulp q ≤ q) : (k : ℚ) * ulp q ≤ roundQ q := by
  by_cases hq : q = 0
  · subst hq; simpa [roundQ] using h
  · rw [roundQ_of_ne q hq]
    have hu := ulp_pos q
    have : k ≤ rne (q / ulp q) := le_rne_of_le _ _ (by rwa [le_div_iff₀ hu])
    have : (k : ℚ) ≤ rne (q / ulp q) := by exact_mod_cast this
    exact mul_le_mul_of_nonneg_right this hu.le

theorem roundQ_eq_of_grid (q : ℚ) (k : ℤ) (h : q = k * ulp q) : roundQ q = q := by
  have h1 := roundQ_le_of_grid q k h.le
  have h2 := le_roundQ_of_grid q k h.ge
  rw [← h] at h1 h2
  exact le_antisymm h1 h2

/-- Every integer multiple of `2^m` lies on the grid of `q` as soon as `2^m` is
not finer than the spacing at `q`. -/
theorem on_grid (q : ℚ) (m : ℤ) (n : ℤ) (h : max (ilog2 q) (-126) - 23 ≤ m) :
    ∃ k : ℤ, (n : ℚ) * (2 : ℚ) ^ m = (k : ℚ) * ulp q := by
  refine ⟨n * 2 ^ (m - (max (ilog2 q) (-126) - 23)).toNat, ?_⟩
  have hnn : 0 ≤ m - (max (ilog2 q) (-126) - 23) := by omega
  rw [ulp_eq]
  push_cast
  rw [mul_assoc, ← zpow_natCast, Int.toNat_of_nonneg hnn, ← zpow_add₀ (by norm_num : (2 : ℚ) ≠ 0)]
  congr 2
  ring

theorem ilog2_le_of_le {q : ℚ} (hq : q ≠ 0) {m : ℤ} (h : |q| < (2 : ℚ) ^ (m + 1)) : ilog2 q ≤ m := by
  have h1 := (ilog2_spec q hq).1
  have : (2 : ℚ) ^ ilog2 q < (2 : ℚ) ^ (m + 1) := lt_of_le_of_lt h1 h
  have := (zpow_lt_zpow_iff_right₀ (by norm_num : (1 : ℚ) < 2)).mp this
  omega

theorem le_ilog2_of_le {q : ℚ} (hq : q ≠ 0) {m : ℤ} (h : (2 : ℚ) ^ m ≤ |q|) : m ≤ ilog2 q := by
  have h1 := (ilog2_spec q hq).2
  have : (2 : ℚ) ^ m < (2 : ℚ) ^ (ilog2 q + 1) := lt_of_le_of_lt h h1
  have := (zpow_lt_zpow_iff_right₀ (by norm_num : (1 : ℚ) < 2)).mp this
  omega

theorem roundQ_nonneg {q : ℚ} (hq : 0 ≤ q) : 0 ≤ roundQ q := by
  have := le_roundQ_of_grid q 0 (by simpa using hq)
  simpa using this

/-- An upper bound that is a power of two survives rounding. -/
theorem roundQ_le_pow {q : ℚ} (hq : 0 < q) {m : ℤ} (hm : -149 ≤ m) (h : q ≤ (2 : ℚ) ^ m) :
    roundQ q ≤ (2 : ℚ) ^ m := by
  have he : ilog2 q ≤ m := by
    apply ilog2_le_of_le hq.ne'
    rw [abs_of_pos hq]
    exact lt_of_le_of_lt h (zpow_lt_zpow_right₀ (by norm_num) (by omega))
  obtain ⟨k, hk⟩ := on_grid q m 1 (by omega)
  simp only [Int.cast_one, one_mul] at hk
  rw [hk] at h ⊢
  exact roundQ_le_of_grid q k h

/-- Above the subnormal range a value never rounds below its leading power of two. -/
theorem pow_ilog2_le_roundQ {q : ℚ} (hq : 0 < q) (he : -126 ≤ ilog2 q) :
    (2 : ℚ) ^ ilog2 q ≤ roundQ q := by
  have h := (ilog2_spec q hq.ne').1
  rw [abs_of_pos hq] at h
  obtain ⟨k, hk⟩ := on_grid q (ilog2 q) 1 (by omega)
  simp only [Int.cast_one, one_mul] at hk
  rw [hk] at h ⊢
  exact le_roundQ_of_grid q k h

theorem pow_le_roundQ {q : ℚ} {m : ℤ} (hm : -126 ≤ m) (h : (2 : ℚ) ^ m ≤ q) :
    (2 : ℚ) ^ m ≤ roundQ q := by
  have hq : 0 < q := lt_of_lt_of_le (by positivity) h
  have he : m ≤ ilog2 q := le_ilog2_of_le hq.ne' (by rwa [abs_of_pos hq])
  exact (zpow_le_zpow_right₀ (by norm_num) he).trans (pow_ilog2_le_roundQ hq (by omega))

/-- Integers up to `2^24` are binary32 values, so an integer bound of that size
survives rounding. -/
theorem roundQ_le_int {q : ℚ} (hq : 0 < q) (N : ℤ) (h : q ≤ N) (hN : N ≤ 2 ^ 24) :
    roundQ q ≤ N := by
  have hNq : (N : ℚ) ≤ 2 ^ 24 := by exact_mod_cast hN
  by_cases he : ilog2 q ≤ 23
  · obtain ⟨k, hk⟩ := on_grid q 0 N (by omega)
    simp only [zpow_zero, mul_one] at hk
    rw [hk] at h ⊢
    exact roundQ_le_of_grid q k h
  · have h24 : (2 : ℚ) ^ (24 : ℤ) ≤ q := by
      have := (ilog2_spec q hq.ne').1
      rw [abs_of_pos hq] at this
      exact (zpow_le_zpow_right₀ (by norm_num) (by omega)).trans this
    have hqe : q = 2 ^ (24 : ℤ) := le_antisymm (by norm_num at hNq ⊢; linarith) h24
    have hNe : (N : ℚ) = 2 ^ (24 : ℤ) := le_antisymm (by norm_num at hNq ⊢; linarith) (hqe ▸ h)
    rw [hNe]
    exact roundQ_le_pow hq (by norm_num) hqe.le

theorem int_le_roundQ {q : ℚ} (hq : 0 < q) (N : ℤ) (h : (N : ℚ) ≤ q) (hq24 : q ≤ 2 ^ 24) :
    (N : ℚ) ≤ roundQ q := by
  by_cases he : ilog2 q ≤ 23
  · obtain ⟨k, hk⟩ := on_grid q 0 N (by omega)
    simp only [zpow_zero, mul_one] at hk
    rw [hk] at h ⊢
    exact le_roundQ_of_grid q k h
  · have h24 : (2 : ℚ) ^ (24 : ℤ) ≤ q := by
      have := (ilog2_spec q hq.ne').1
      rw [abs_of_pos hq] at this
      exact (zpow_le_zpow_right₀ (by norm_num) (by omega)).trans this
    have := pow_le_roundQ (by norm_num : (-126 : ℤ) ≤ 24) h24
    norm_num at this h24 hq24
    linarith

/-- Go `float32(n)` is exact for `0 < n ≤ 2^24`. -/
theorem roundQ_int_exact (n : ℤ) (h0 : 0 < n) (h : n ≤ 2 ^ 24) : roundQ (n : ℚ) = n := by
  have hq : (0 : ℚ) < n := by exact_mod_cast h0
  have hnq : (n : ℚ) ≤ 2 ^ 24 := by exact_mod_cast h
  exact le_antisymm (roundQ_le_int hq n le_rfl h) (int_le_roundQ hq n le_rfl hnq)

/-- Rounding is monotone on the positive rationals. -/
theorem roundQ_mono {x y : ℚ} (hx : 0 < x) (h : x ≤ y) : roundQ x ≤ roundQ y := by
  have hy : 0 < y := lt_of_lt_of_le hx h
  have sx := ilog2_spec x hx.ne'
  have sy := ilog2_spec y hy.ne'
  rw [abs_of_pos hx] at sx
  rw [abs_of_pos hy] at sy
  have hexy : ilog2 x ≤ ilog2 y := by
    have : (2 : ℚ) ^ ilog2 x < (2 : ℚ) ^ (ilog2 y + 1) := lt_of_le_of_lt (sx.1.trans h) sy.2
    have := (zpow_lt_zpow_iff_right₀ (by norm_num : (1 : ℚ) < 2)).mp this
    omega
  by_cases hsame : max (ilog2 x) (-126) = max (ilog2 y) (-126)
  · have hu : ulp x = ulp y := by rw [ulp_eq, ulp_eq, hsame]
    rw [roundQ_of_ne x hx.ne', roundQ_of_ne y hy.ne', hu]
    have hu0 := ulp_pos y
    have : rne (x / ulp y) ≤ rne (y / ulp y) := rne_mono (div_le_div_of_nonneg_right h hu0.le)
    have : (rne (x / ulp y) : ℚ) ≤ rne (y / ulp y) := by exact_mod_cast this
    exact mul_le_mul_of_nonneg_right this hu0.le
  · have hlt : max (ilog2 x) (-126) + 1 ≤ ilog2 y := by omega
    have hxb : x ≤ (2 : ℚ) ^ (max (ilog2 x) (-126) + 1) :=
      sx.2.le.trans (zpow_le_zpow_right₀ (by norm_num) (by omega))
    have h1 : roundQ x ≤ (2 : ℚ) ^ (max (ilog2 x) (-126) + 1) := roundQ_le_pow hx (by omega) hxb
    have h2 : (2 : ℚ) ^ ilog2 y ≤ roundQ y := pow_ilog2_le_roundQ hy (by omega)
    exact h1.trans ((zpow_le_zpow_right₀ (by norm_num) hlt).trans h2)

theorem round_of_lt {q : ℚ} (h : |roundQ q| < (2 : ℚ) ^ 128) : round q = fin (roundQ q) := by
  unfold round
  simp only
  rw [if_neg (not_le.mpr h)]

/-- Go `float32(n)` of a positive `int64` is finite, at least `1` and at most `2^63`. -/
theorem ofInt_of_pos (n : Int) (h1 : 1 ≤ n) (h63 : n < 2 ^ 63) :
    ofInt n = fin (roundQ n) ∧ 1 ≤ roundQ (n : ℚ) ∧ roundQ (n : ℚ) ≤ 2 ^ 63 := by
  have hq1 : (1 : ℚ) ≤ n := by exact_mod_cast h1
  have hq63 : (n : ℚ) ≤ 2 ^ 63 := by exact_mod_cast h63.le
  have lo : (2 : ℚ) ^ (0 : ℤ) ≤ roundQ n := pow_le_roundQ (by norm_num) (by simpa using hq1)
  have hi : roundQ (n : ℚ) ≤ (2 : ℚ) ^ (63 : ℤ) :=
    roundQ_le_pow (by linarith) (by norm_num) (by norm_num at hq63 ⊢; exact hq63)
  norm_num at lo hi
  refine ⟨?_, lo, by norm_num; exact hi⟩
  apply round_of_lt
  rw [abs_of_nonneg (by linarith)]
  norm_num
  linarith

end F32

/-! ## Lemmas on `initRendezvous` -/

theorem normalize_Number (r : Rendezvous) (total : Int) :
    (normalize r total).Number = (normalizeQuorum r total).Number := by
  unfold normalize normalizeTimeout Rendezvous.reset
  split_ifs <;> rfl

theorem normalize_Percent (r : Rendezvous) (total : Int) :
    (normalize r total).Percent = (normalizeQuorum r total).Percent := by
  unfold normalize normalizeTimeout Rendezvous.reset
  split_ifs <;> rfl

theorem normalizeQuorum_Timeout (r : Rendezvous) (total : Int) :
    (normalizeQuorum r total).Timeout = r.Timeout := by
  unfold normalizeQuorum
  split_ifs <;> rfl

theorem normalize_Timeout (r : Rendezvous) (total : Int) :
    (normalize r total).Timeout = if r.Timeout ≤ 0 then defaultRendezvousTimeout else r.Timeout := by
  unfold normalize normalizeTimeout Rendezvous.reset
  rw [normalizeQuorum_Timeout]
  split_ifs <;> simp [normalizeQuorum_Timeout]

theorem percentBranch_fin (r : Rendezvous) (p : ℚ) (hp : r.Percent = F32.fin p) :
    percentBranch r = true ↔ r.Number = 0 ∧ 0 < p ∧ p ≤ 1 := by
  unfold percentBranch defaultRendezvousPercent
  rw [hp]
  simp [F32.gt, F32.le, F32.lt, F32.eq, le_iff_lt_or_eq, and_assoc]

theorem numberBranch_fin (r : Rendezvous) (total : Int) (p : ℚ) (hp : r.Percent = F32.fin p) :
    numberBranch r total = true ↔ 0 < r.Number ∧ r.Number ≤ total ∧ p = 0 := by
  unfold numberBranch
  rw [hp]
  simp [F32.eq, and_assoc]

/-- What the loop of `initRendezvous` computes: every step keeps its place with
its declaration normalised, and the list grows by the normalised declarations
in step order. -/
theorem initRendezvousLoop_spec (steps : List TStep) (total : Int) (acc : List Rendezvous) :
    (initRendezvousLoop steps total acc).1 =
        steps.map (fun s => { s with Rendezvous := s.Rendezvous.map (fun r => normalize r total) }) ∧
    (initRendezvousLoop steps total acc).2 =
        acc ++ steps.filterMap (fun s => s.Rendezvous.map (fun r => normalize r total)) := by
  induction steps generalizing acc with
  | nil => simp [initRendezvousLoop]
  | cons s rest ih =>
    unfold initRendezvousLoop
    cases hs : s.Rendezvous with
    | none =>
      obtain ⟨h1, h2⟩ := ih acc
      simp only [h1, h2, List.map_cons, List.filterMap_cons, hs, Option.map_none', true_and]
      cases s
      simp_all
    | some r =>
      obtain ⟨h1, h2⟩ := ih (acc ++ [normalize r total])
      simp [h1, h2, List.filterMap_cons, hs]

theorem initRendezvous_list (tCase : TCase) (total : Int) :
    (initRendezvous tCase total).2 =
      tCase.TestSteps.filterMap (fun s => s.Rendezvous.map (fun r => normalize r total)) := by
  unfold initRendezvous
  simp [(initRendezvousLoop_spec tCase.TestSteps total []).2]

theorem mem_initRendezvous (tCase : TCase) (total : Int) (x : Rendezvous) :
    x ∈ (initRendezvous tCase total).2 ↔
      ∃ s ∈ tCase.TestSteps, ∃ r, s.Rendezvous = some r ∧ x = normalize r total := by
  rw [initRendezvous_list, List.mem_filterMap]
  constructor
  · rintro ⟨s, hs, hx⟩
    cases hr : s.Rendezvous with
    | none => simp [hr] at hx
    | some r => exact ⟨s, hs, r, hr, by simpa [hr, eq_comm] using hx⟩
  · rintro ⟨s, hs, r, hr, rfl⟩
    exact ⟨s, hs, by simp [hr]⟩

theorem normalizeQuorum_percent (r : Rendezvous) (total : Int) (h : percentBranch r = true) :
    normalizeQuorum r total =
      { r with Number := F32.toInt64 (F32.mul r.Percent (F32.ofInt total)) } := by
  unfold normalizeQuorum
  rw [if_pos h]

theorem normalizeQuorum_number (r : Rendezvous) (total : Int) (h1 : percentBranch r = false)
    (h2 : numberBranch r total = true) :
    normalizeQuorum r total =
      { r with Percent := F32.div (F32.ofInt r.Number) (F32.ofInt total) } := by
  unfold normalizeQuorum
  rw [if_neg (by simp [h1]), if_pos h2]

theorem normalizeQuorum_default (r : Rendezvous) (total : Int) (h1 : percentBranch r = false)
    (h2 : numberBranch r total = false) :
    normalizeQuorum r total = { r with Number := total, Percent := defaultRendezvousPercent } := by
  unfold normalizeQuorum
  rw [if_neg (by simp [h1]), if_neg (by simp [h2])]

theorem toInt64_of_nonneg {x : ℚ} (h0 : 0 ≤ x) (h : x < 2 ^ 63) : F32.toInt64 (F32.fin x) = ⌊x⌋ := by
  have hf0 : 0 ≤ ⌊x⌋ := Int.floor_nonneg.mpr h0
  have hf : ⌊x⌋ < 2 ^ 63 := by
    have : (⌊x⌋ : ℚ) < ((2 ^ 63 : ℤ) : ℚ) := lt_of_le_of_lt (Int.floor_le x) (by push_cast; exact h)
    exact_mod_cast this
  unfold F32.toInt64
  simp only [if_pos h0]
  rw [if_pos ⟨by omega, hf⟩]

/-- The product `Percent * float32(total)` of the first branch, for a total that
`float32` holds exactly. -/
theorem mul_percent_total (p : ℚ) (total : Int) (h0 : 0 < p) (h1 : p ≤ 1) (ht : 1 ≤ total)
    (h24 : total ≤ 2 ^ 24) :
    F32.mul (F32.fin p) (F32.ofInt total) = F32.fin (F32.roundQ (p * total)) ∧
      (⌊p * total⌋ : ℚ) ≤ F32.roundQ (p * total) ∧
      F32.roundQ (p * total) ≤ ⌈p * total⌉ ∧
      F32.roundQ (p * total) ≤ total := by
  have hofInt := F32.ofInt_of_pos total ht (by omega)
  have hexact : F32.roundQ (total : ℚ) = total := F32.roundQ_int_exact total (by omega) h24
  have htq : (1 : ℚ) ≤ total := by exact_mod_cast ht
  have htq24 : (total : ℚ) ≤ 2 ^ 24 := by exact_mod_cast h24
  have hx0 : 0 < p * total := by positivity
  have hxt : p * total ≤ total := by nlinarith
  have hup : F32.roundQ (p * total) ≤ total := F32.roundQ_le_int hx0 total hxt h24
  have hlo : (⌊p * total⌋ : ℚ) ≤ F32.roundQ (p * total) :=
    F32.int_le_roundQ hx0 _ (Int.floor_le _) (hxt.trans htq24)
  have hce : F32.roundQ (p * total) ≤ ⌈p * total⌉ := by
    apply F32.roundQ_le_int hx0 _ (Int.le_ceil _)
    apply Int.ceil_le.mpr
    push_cast
    exact hxt.trans htq24
  refine ⟨?_, hlo, hce, hup⟩
  rw [hofInt.1, hexact]
  show F32.round (p * total) = _
  apply F32.round_of_lt
  rw [abs_of_nonneg (F32.roundQ_nonneg hx0.le)]
  calc F32.roundQ (p * total) ≤ total := hup
    _ ≤ 2 ^ 24 := htq24
    _ < 2 ^ 128 := by norm_num

/-- The quotient `float32(Number) / float32(total)` of the second branch. -/
theorem div_number_total (n total : Int) (hn : 1 ≤ n) (hnt : n ≤ total) (h63 : total < 2 ^ 63) :
    ∃ q : ℚ, F32.div (F32.ofInt n) (F32.ofInt total) = F32.fin q ∧ 0 < q ∧ q ≤ 1 ∧
      q = F32.roundQ (F32.roundQ n / F32.roundQ total) := by
  obtain ⟨hn1, hn2, hn3⟩ := F32.ofInt_of_pos n hn (by omega)
  obtain ⟨ht1, ht2, ht3⟩ := F32.ofInt_of_pos total (by omega) h63
  have hmono : F32.roundQ (n : ℚ) ≤ F32.roundQ (total : ℚ) :=
    F32.roundQ_mono (by exact_mod_cast (by omega : 0 < n)) (by exact_mod_cast hnt)
  have hb0 : (0 : ℚ) < F32.roundQ (total : ℚ) := by linarith
  have hquo1 : F32.roundQ (n : ℚ) / F32.roundQ (total : ℚ) ≤ 1 := (div_le_one hb0).mpr hmono
  have hquo0 : (2 : ℚ) ^ (-63 : ℤ) ≤ F32.roundQ (n : ℚ) / F32.roundQ (total : ℚ) := by
    rw [le_div_iff₀ hb0]
    calc (2 : ℚ) ^ (-63 : ℤ) * F32.roundQ (total : ℚ) ≤ 2 ^ (-63 : ℤ) * 2 ^ 63 :=
          mul_le_mul_of_nonneg_left ht3 (by positivity)
      _ = 1 := by norm_num
      _ ≤ F32.roundQ (n : ℚ) := hn2
  have hpos : 0 < F32.roundQ (F32.roundQ (n : ℚ) / F32.roundQ (total : ℚ)) :=
    lt_of_lt_of_le (by positivity) (F32.pow_le_roundQ (by norm_num) hquo0)
  have hle : F32.roundQ (F32.roundQ (n : ℚ) / F32.roundQ (total : ℚ)) ≤ 1 := by
    have := F32.roundQ_le_pow (lt_of_lt_of_le (by positivity) hquo0) (by norm_num : (-149 : ℤ) ≤ 0)
      (by simpa using hquo1)
    simpa using this
  refine ⟨_, ?_, hpos, hle, rfl⟩
  rw [hn1, ht1]
  unfold F32.div
  simp only [if_neg hb0.ne']
  apply F32.round_of_lt
  rw [abs_of_pos hpos]
  exact lt_of_le_of_lt hle (by norm_num)

/-- Rounding a value that is already rounded changes nothing, above the
subnormal range. -/
theorem roundQ_idem {q : ℚ} (hq : 0 < q) (he : -126 ≤ F32.ilog2 q) :
    F32.roundQ (F32.roundQ q) = F32.roundQ q := by
  have hspec := F32.ilog2_spec q hq.ne'
  rw [abs_of_pos hq] at hspec
  have hlo : (2 : ℚ) ^ F32.ilog2 q ≤ F32.roundQ q := F32.pow_ilog2_le_roundQ hq he
  have hhi : F32.roundQ q ≤ (2 : ℚ) ^ (F32.ilog2 q + 1) :=
    F32.roundQ_le_pow hq (by omega) hspec.2.le
  have hpos : 0 < F32.roundQ q := lt_of_lt_of_le (by positivity) hlo
  rcases eq_or_lt_of_le hhi with heq | hlt
  · rw [heq]
    exact le_antisymm (F32.roundQ_le_pow (by positivity) (by omega) le_rfl)
      (F32.pow_le_roundQ (by omega) le_rfl)
  · have hlog : F32.ilog2 (F32.roundQ q) = F32.ilog2 q :=
      le_antisymm (F32.ilog2_le_of_le hpos.ne' (by rwa [abs_of_pos hpos]))
        (F32.le_ilog2_of_le hpos.ne' (by rwa [abs_of_pos hpos]))
    have hulp : F32.ulp (F32.roundQ q) = F32.ulp q := by
      rw [F32.ulp_eq, F32.ulp_eq, hlog]
    apply F32.roundQ_eq_of_grid _ (F32.rne (q / F32.ulp q))
    rw [hulp]
    exact F32.roundQ_of_ne q hq.ne'

/-- The product `Percent * float32(total)` of the first branch for any positive
`int64` total: it is not negative and not above `float32(total)`. -/
theorem mul_percent_any (p : ℚ) (total : Int) (h0 : 0 < p) (h1 : p ≤ 1) (ht : 1 ≤ total)
    (h63 : total < 2 ^ 63) :
    F32.mul (F32.fin p) (F32.ofInt total) = F32.fin (F32.roundQ (p * F32.roundQ total)) ∧
      0 ≤ F32.roundQ (p * F32.roundQ total) ∧
      F32.roundQ (p * F32.roundQ total) ≤ F32.roundQ total := by
  obtain ⟨hof, hlo, hhi⟩ := F32.ofInt_of_pos total ht h63
  have htq : (1 : ℚ) ≤ total := by exact_mod_cast ht
  have hx0 : 0 < p * F32.roundQ total := by positivity
  have hxt : p * F32.roundQ total ≤ F32.roundQ total := by nlinarith
  have he : -126 ≤ F32.ilog2 (total : ℚ) := by
    have : (0 : ℤ) ≤ F32.ilog2 (total : ℚ) :=
      F32.le_ilog2_of_le (by positivity) (by rw [abs_of_pos (by linarith)]; simpa using htq)
    omega
  have hup : F32.roundQ (p * F32.roundQ total) ≤ F32.roundQ total := by
    have := F32.roundQ_mono hx0 hxt
    rwa [roundQ_idem (by linarith) he] at this
  refine ⟨?_, F32.roundQ_nonneg hx0.le, hup⟩
  rw [hof]
  show F32.round (p * F32.roundQ total) = _
  apply F32.round_of_lt
  rw [abs_of_nonneg (F32.roundQ_nonneg hx0.le)]
  calc F32.roundQ (p * F32.roundQ total) ≤ F32.roundQ total := hup
    _ ≤ 2 ^ 63 := hhi
    _ < 2 ^ 128 := by norm_num

theorem rne_near (x : ℚ) : (F32.rne x : ℚ) ≤ x + 1 / 2 ∧ x - 1 / 2 ≤ F32.rne x := by
  have h1 : (⌊x⌋ : ℚ) ≤ x := Int.floor_le x
  have h2 : x < ⌊x⌋ + 1 := Int.lt_floor_add_one x
  unfold F32.rne
  simp only
  split_ifs with a b c
  · constructor <;> linarith
  · push_cast
    constructor <;> linarith
  · have : x - ⌊x⌋ = 1 / 2 := le_antisymm (not_lt.mp b) (not_lt.mp a)
    constructor <;> linarith
  · have : x - ⌊x⌋ = 1 / 2 := le_antisymm (not_lt.mp b) (not_lt.mp a)
    push_cast
    constructor <;> linarith

/-- Above the subnormal range rounding moves a value by at most half a unit in
the last place, a relative error of at most `2^-24`. -/
theorem roundQ_rel {q : ℚ} (hq : 0 < q) (he : -126 ≤ F32.ilog2 q) :
    q * (1 - 1 / 16777216) ≤ F32.roundQ q ∧ F32.roundQ q ≤ q * (1 + 1 / 16777216) := by
  have hu := F32.ulp_pos q
  have hulp : F32.ulp q = (2 : ℚ) ^ F32.ilog2 q * 2 ^ (-23 : ℤ) := by
    rw [F32.ulp_eq, max_eq_left he, sub_eq_add_neg, zpow_add₀ (by norm_num)]
  have hspec := (F32.ilog2_spec q hq.ne').1
  rw [abs_of_pos hq] at hspec
  have hule : F32.ulp q ≤ q * 2 ^ (-23 : ℤ) := by
    rw [hulp]
    exact mul_le_mul_of_nonneg_right hspec (by positivity)
  obtain ⟨h1, h2⟩ := rne_near (q / F32.ulp q)
  rw [F32.roundQ_of_ne q hq.ne']
  have e : q / F32.ulp q * F32.ulp q = q := div_mul_cancel₀ q hu.ne'
  have h1b : (F32.rne (q / F32.ulp q) : ℚ) * F32.ulp q ≤ q + F32.ulp q / 2 := by
    calc (F32.rne (q / F32.ulp q) : ℚ) * F32.ulp q
        ≤ (q / F32.ulp q + 1 / 2) * F32.ulp q := mul_le_mul_of_nonneg_right h1 hu.le
      _ = q + F32.ulp q / 2 := by rw [add_mul, e]; ring
  have h2b : q - F32.ulp q / 2 ≤ (F32.rne (q / F32.ulp q) : ℚ) * F32.ulp q := by
    calc q - F32.ulp q / 2 = (q / F32.ulp q - 1 / 2) * F32.ulp q := by rw [sub_mul, e]; ring
      _ ≤ (F32.rne (q / F32.ulp q) : ℚ) * F32.ulp q := mul_le_mul_of_nonneg_right h2 hu.le
  norm_num at hule
  constructor <;> linarith

/-- The quotient of the second branch is within a relative error of `2^-22` of
the exact quotient, for every positive `int64` total. -/
theorem div_number_near (n total : Int) (hn : 1 ≤ n) (hnt : n ≤ total) (h63 : total < 2 ^ 63) :
    |F32.roundQ (F32.roundQ n / F32.roundQ total) - (n : ℚ) / total| ≤
      (n : ℚ) / total / 4194304 := by
  obtain ⟨_, hn2, _⟩ := F32.ofInt_of_pos n hn (by omega)
  obtain ⟨_, ht2, ht3⟩ := F32.ofInt_of_pos total (by omega) h63
  have hN : (1 : ℚ) ≤ n := by exact_mod_cast hn
  have hT : (1 : ℚ) ≤ total := by exact_mod_cast (by omega : (1 : Int) ≤ total)
  have hlogN : -126 ≤ F32.ilog2 (n : ℚ) := by
    have : (0 : ℤ) ≤ F32.ilog2 (n : ℚ) :=
      F32.le_ilog2_of_le (by positivity) (by rw [abs_of_pos (by linarith)]; simpa using hN)
    omega
  have hlogT : -126 ≤ F32.ilog2 (total : ℚ) := by
    have : (0 : ℤ) ≤ F32.ilog2 (total : ℚ) :=
      F32.le_ilog2_of_le (by positivity) (by rw [abs_of_pos (by linarith)]; simpa using hT)
    omega
  obtain ⟨ha1, ha2⟩ := roundQ_rel (by linarith : (0 : ℚ) < n) hlogN
  obtain ⟨hb1, hb2⟩ := roundQ_rel (by linarith : (0 : ℚ) < total) hlogT
  set a := F32.roundQ (n : ℚ) with ha
  set b := F32.roundQ (total : ℚ) with hb
  have hb0 : 0 < b := by linarith
  have ha0 : 0 < a := by linarith
  have hx0 : 0 < a / b := div_pos ha0 hb0
  have hquo0 : (2 : ℚ) ^ (-63 : ℤ) ≤ a / b := by
    rw [le_div_iff₀ hb0]
    calc (2 : ℚ) ^ (-63 : ℤ) * b ≤ 2 ^ (-63 : ℤ) * 2 ^ 63 :=
          mul_le_mul_of_nonneg_left ht3 (by positivity)
      _ = 1 := by norm_num
      _ ≤ a := hn2
  have hlogx : -126 ≤ F32.ilog2 (a / b) := by
    have : (-63 : ℤ) ≤ F32.ilog2 (a / b) :=
      F32.le_ilog2_of_le hx0.ne' (by rwa [abs_of_pos hx0])
    omega
  obtain ⟨hq1, hq2⟩ := roundQ_rel hx0 hlogx
  have hr0 : (0 : ℚ) < (n : ℚ) / total := div_pos (by linarith) (by linarith)
  have hxup : a / b ≤ (n : ℚ) / total * (16777217 / 16777215) := by
    have h1 : a / b ≤ ((n : ℚ) * (1 + 1 / 16777216)) / ((total : ℚ) * (1 - 1 / 16777216)) :=
      div_le_div₀ (by positivity) ha2 (by norm_num; linarith) hb1
    have h2 : ((n : ℚ) * (1 + 1 / 16777216)) / ((total : ℚ) * (1 - 1 / 16777216)) =
        (n : ℚ) / total * (16777217 / 16777215) := by
      field_simp
      ring
    rwa [h2] at h1
  have hxlo : (n : ℚ) / total * (16777215 / 16777217) ≤ a / b := by
    have h1 : ((n : ℚ) * (1 - 1 / 16777216)) / ((total : ℚ) * (1 + 1 / 16777216)) ≤ a / b :=
      div_le_div₀ ha0.le ha1 (by positivity) hb2
    have h2 : ((n : ℚ) * (1 - 1 / 16777216)) / ((total : ℚ) * (1 + 1 / 16777216)) =
        (n : ℚ) / total * (16777215 / 16777217) := by
      field_simp
      ring
    rwa [h2] at h1
  rw [abs_le]
  constructor <;> nlinarith

/-! ## Normalisation: the claims -/

theorem mem_caseOf (r : Rendezvous) :
    ({ Name := "step", Rendezvous := some r } : TStep) ∈ (caseOf r).TestSteps := by
  simp [caseOf]

/-- C1, as stated, fails.  With `{number: 0, percent: 0.3}` and `total = 2` the
first branch computes `int64(0.3 * 2) = 0`, so `1 ≤ Number` is violated; with
`{number: 0, percent: 1.0}` and `total = 16777219` the conversion
`float32(total)` rounds up to `16777220`, so `Number ≤ total` is violated. -/
theorem initRendezvous_bounds_counterexample :
    (validDecl declPercent ∧ (1 : Int) ≤ 2 ∧
      (initRendezvous (caseOf declPercent) 2).2.map (fun r => r.Number) = [0]) ∧
    (validDecl declFull ∧ (1 : Int) ≤ 16777219 ∧
      (initRendezvous (caseOf declFull) 16777219).2.map (fun r => r.Number) = [16777220]) := by
  refine ⟨⟨⟨by decide, f32_0_3, rfl, by norm_num [f32_0_3], by norm_num [f32_0_3]⟩, by decide, by decide!⟩,
    ⟨⟨by decide, 1, rfl, by norm_num, by norm_num⟩, by decide, by decide!⟩⟩

/-- C1, amended.  For declarations with `number ≥ 0` and `percent` in `[0, 1]`
and every `int64` total `≥ 1`, each element of the list is the normalisation of
a declared rendezvous and has `0 < Percent ≤ 1` and `Timeout > 0`.  When the
declaration is not taken by the first branch (line 67), `1 ≤ Number ≤ total`.
When it is taken by the first branch, `Number = int64(Percent * float32(total))`:
for `total ≤ 2^62` it satisfies `0 ≤ Number ≤ float32(total)`; for
`total ≤ 2^24`, where `float32(total)` is exact, it satisfies `0 ≤ Number ≤ total`,
lies between the floor and the ceiling of `Percent * total`, and is at least `1`
as soon as `Percent * total ≥ 1`. -/
theorem initRendezvous_bounds (tCase : TCase) (total : Int) (h1 : 1 ≤ total)
    (h63 : total < 2 ^ 63)
    (hv : ∀ s ∈ tCase.TestSteps, ∀ r, s.Rendezvous = some r → validDecl r) :
    ∀ x ∈ (initRendezvous tCase total).2,
      ∃ s ∈ tCase.TestSteps, ∃ r, s.Rendezvous = some r ∧ x = normalize r total ∧
        (∃ q : ℚ, x.Percent = F32.fin q ∧ 0 < q ∧ q ≤ 1) ∧
        0 < x.Timeout ∧
        (percentBranch r = false → 1 ≤ x.Number ∧ x.Number ≤ total) ∧
        (percentBranch r = true →
          ∃ p : ℚ, r.Percent = F32.fin p ∧
            (total ≤ 2 ^ 62 → 0 ≤ x.Number ∧ (x.Number : ℚ) ≤ F32.roundQ total) ∧
            (total ≤ 2 ^ 24 →
              0 ≤ x.Number ∧ x.Number ≤ total ∧
              ⌊p * total⌋ ≤ x.Number ∧ x.Number ≤ ⌈p * total⌉ ∧
              (1 ≤ p * total → 1 ≤ x.Number))) := by
  intro x hx
  obtain ⟨s, hs, r, hr, rfl⟩ := (mem_initRendezvous tCase total x).mp hx
  obtain ⟨hN, p, hp, hp0, hp1⟩ := hv s hs r hr
  refine ⟨s, hs, r, hr, rfl, ?_⟩
  rw [normalize_Number, normalize_Percent, normalize_Timeout]
  refine ⟨?_, ?_, ?_, ?_⟩
  · cases hb : percentBranch r with
    | true =>
      obtain ⟨_, hpp, _⟩ := (percentBranch_fin r p hp).mp hb
      rw [normalizeQuorum_percent r total hb]
      exact ⟨p, hp, hpp, hp1⟩
    | false =>
      cases hb2 : numberBranch r total with
      | true =>
        rw [normalizeQuorum_number r total hb hb2]
        obtain ⟨h0, ht, _⟩ := (numberBranch_fin r total p hp).mp hb2
        obtain ⟨q, hq, hq0, hq1, _⟩ := div_number_total r.Number total (by omega) ht h63
        exact ⟨q, hq, hq0, hq1⟩
      | false =>
        rw [normalizeQuorum_default r total hb hb2]
        exact ⟨1, rfl, by norm_num, le_rfl⟩
  · unfold defaultRendezvousTimeout
    split_ifs <;> omega
  · intro hb
    cases hb2 : numberBranch r total with
    | true =>
      rw [normalizeQuorum_number r total hb hb2]
      obtain ⟨h0, ht, _⟩ := (numberBranch_fin r total p hp).mp hb2
      exact ⟨by show 1 ≤ r.Number; omega, ht⟩
    | false =>
      rw [normalizeQuorum_default r total hb hb2]
      exact ⟨h1, le_rfl⟩
  · intro hb
    obtain ⟨_, hpp, _⟩ := (percentBranch_fin r p hp).mp hb
    rw [normalizeQuorum_percent r total hb, hp]
    simp only
    refine ⟨p, rfl, ?_, ?_⟩
    · intro h62
      obtain ⟨hm, hnn, hup⟩ := mul_percent_any p total hpp hp1 h1 h63
      have htq : (0 : ℚ) < total := by exact_mod_cast (by omega : 0 < total)
      have h62q : (total : ℚ) ≤ (2 : ℚ) ^ (62 : ℤ) := by
        have : (total : ℚ) ≤ ((2 ^ 62 : ℤ) : ℚ) := by exact_mod_cast h62
        norm_num at this ⊢
        exact this
      have hr62 : F32.roundQ (total : ℚ) ≤ (2 : ℚ) ^ (62 : ℤ) :=
        F32.roundQ_le_pow htq (by norm_num) h62q
      have hlt : F32.roundQ (p * F32.roundQ total) < 2 ^ 63 := by
        have : (2 : ℚ) ^ (62 : ℤ) < 2 ^ 63 := by norm_num
        linarith
      rw [hm, toInt64_of_nonneg hnn hlt]
      exact ⟨Int.floor_nonneg.mpr hnn, (Int.floor_le _).trans hup⟩
    · intro h24
      obtain ⟨hm, hlo, hce, hup⟩ := mul_percent_total p total hpp hp1 h1 h24
      have hnn : 0 ≤ F32.roundQ (p * total) := F32.roundQ_nonneg (by positivity)
      have hlt : F32.roundQ (p * total) < 2 ^ 63 :=
        lt_of_le_of_lt hup (by exact_mod_cast h63)
      rw [hm, toInt64_of_nonneg hnn hlt]
      have hfl : ⌊p * total⌋ ≤ ⌊F32.roundQ (p * total)⌋ := Int.le_floor.mpr hlo
      refine ⟨Int.floor_nonneg.mpr hnn, ?_, hfl, ?_, ?_⟩
      · have : (⌊F32.roundQ (p * total)⌋ : ℚ) ≤ total := (Int.floor_le _).trans hup
        exact_mod_cast this
      · have : (⌊F32.roundQ (p * total)⌋ : ℚ) ≤ ⌈p * total⌉ := (Int.floor_le _).trans hce
        exact_mod_cast this
      · intro hge
        have : (1 : ℤ) ≤ ⌊p * total⌋ := Int.le_floor.mpr (by simpa using hge)
        omega

theorem validDecl_declPercent :
    ∀ s ∈ (caseOf declPercent).TestSteps, ∀ r, s.Rendezvous = some r → validDecl r := by
  intro s hs r hr
  simp only [caseOf, List.mem_singleton] at hs
  subst hs
  simp only [Option.some.injEq] at hr
  subst hr
  exact ⟨by decide, f32_0_3, rfl, by norm_num [f32_0_3], by norm_num [f32_0_3]⟩

/-- Example: `{number: 0, percent: 0.3, timeout: 0}` with `total = 20` is
normalised to `Number = 6`, `Percent = 0.3`, `Timeout = 5000`, within the bounds
of the first branch. -/
theorem initRendezvous_bounds_witness :
    (normalize declPercent 20).Number = 6 ∧ (normalize declPercent 20).Timeout = 5000 ∧
    percentBranch declPercent = true ∧
    ∃ s ∈ (caseOf declPercent).TestSteps, ∃ r, s.Rendezvous = some r ∧
      normalize declPercent 20 = normalize r 20 ∧
      (∃ q : ℚ, (normalize declPercent 20).Percent = F32.fin q ∧ 0 < q ∧ q ≤ 1) ∧
      0 < (normalize declPercent 20).Timeout ∧
      (percentBranch r = false →
        1 ≤ (normalize declPercent 20).Number ∧ (normalize declPercent 20).Number ≤ 20) ∧
      (percentBranch r = true →
        ∃ p : ℚ, r.Percent = F32.fin p ∧
          ((20 : Int) ≤ 2 ^ 62 → 0 ≤ (normalize declPercent 20).Number ∧
            ((normalize declPercent 20).Number : ℚ) ≤ F32.roundQ ((20 : Int) : ℚ)) ∧
          ((20 : Int) ≤ 2 ^ 24 →
            0 ≤ (normalize declPercent 20).Number ∧ (normalize declPercent 20).Number ≤ 20 ∧
            ⌊p * ((20 : Int) : ℚ)⌋ ≤ (normalize declPercent 20).Number ∧
            (normalize declPercent 20).Number ≤ ⌈p * ((20 : Int) : ℚ)⌉ ∧
            (1 ≤ p * ((20 : Int) : ℚ) → 1 ≤ (normalize declPercent 20).Number))) :=
  ⟨by decide!, by decide!, by decide!,
    initRendezvous_bounds (caseOf declPercent) 20 (by decide) (by decide)
      validDecl_declPercent (normalize declPercent 20)
      ((mem_initRendezvous _ _ _).mpr ⟨_, mem_caseOf declPercent, declPercent, rfl, rfl⟩)⟩

/-- C2, as stated, fails: there is no clamp.  `{number: 0, percent: 0.3}` with
`total = 2` is normalised to `Number = 0`, whereas `max(1, floor(0.3 * 2))` is
`1` (whether the product is taken exactly or in `float32`). -/
theorem initRendezvous_percent_clamp_counterexample :
    declPercent.Number = 0 ∧ declPercent.Percent = F32.fin f32_0_3 ∧ 0 < f32_0_3 ∧ f32_0_3 ≤ 1 ∧
    (initRendezvous (caseOf declPercent) 2).2.map (fun r => r.Number) = [0] ∧
    max 1 ⌊f32_0_3 * 2⌋ = 1 ∧
    max 1 (F32.toInt64 (F32.mul (F32.fin f32_0_3) (F32.ofInt 2))) = 1 := by
  refine ⟨rfl, rfl, by norm_num [f32_0_3], by norm_num [f32_0_3], by decide!, by decide!, by decide!⟩

/-- C2, amended.  For a declaration with `Number == 0` and `0 < Percent ≤ 1` and
every total `≥ 1`, `initRendezvous` sets `Number` to the `float32` product
`Percent * float32(total)` truncated to an integer, without any clamp, and
leaves `Percent` unchanged; for `total ≤ 2^24` that number lies between the
floor and the ceiling of the exact product `Percent × total`. -/
theorem initRendezvous_percent_branch (tCase : TCase) (total : Int) (s : TStep)
    (r : Rendezvous) (p : ℚ) (hs : s ∈ tCase.TestSteps) (hr : s.Rendezvous = some r)
    (hN : r.Number = 0) (hp : r.Percent = F32.fin p) (hp0 : 0 < p) (hp1 : p ≤ 1)
    (ht : 1 ≤ total) :
    normalize r total ∈ (initRendezvous tCase total).2 ∧
    (normalize r total).Number = F32.toInt64 (F32.mul r.Percent (F32.ofInt total)) ∧
    (normalize r total).Percent = r.Percent ∧
    (total ≤ 2 ^ 24 →
      ⌊p * total⌋ ≤ (normalize r total).Number ∧ (normalize r total).Number ≤ ⌈p * total⌉) := by
  have hb : percentBranch r = true := (percentBranch_fin r p hp).mpr ⟨hN, hp0, hp1⟩
  refine ⟨(mem_initRendezvous tCase total _).mpr ⟨s, hs, r, hr, rfl⟩, ?_, ?_, ?_⟩
  · rw [normalize_Number, normalizeQuorum_percent r total hb]
  · rw [normalize_Percent, normalizeQuorum_percent r total hb]
  · intro h24
    obtain ⟨hm, hlo, hce, hup⟩ := mul_percent_total p total hp0 hp1 ht h24
    have hnn : 0 ≤ F32.roundQ (p * total) := F32.roundQ_nonneg (by positivity)
    have hlt : F32.roundQ (p * total) < 2 ^ 63 := by
      have : (total : ℚ) < 2 ^ 63 := by exact_mod_cast (by omega : total < 2 ^ 63)
      linarith
    rw [normalize_Number, normalizeQuorum_percent r total hb, hp]
    simp only
    rw [hm, toInt64_of_nonneg hnn hlt]
    refine ⟨Int.le_floor.mpr hlo, ?_⟩
    have : (⌊F32.roundQ (p * total)⌋ : ℚ) ≤ ⌈p * total⌉ := (Int.floor_le _).trans hce
    exact_mod_cast this

/-- Example: `{number: 0, percent: 0.3}` with `total = 20` gives `Number = 6` and leaves
`Percent = 0.3`. -/
theorem initRendezvous_percent_branch_witness :
    F32.round (3 / 10) = F32.fin f32_0_3 ∧
    (normalize declPercent 20).Number = 6 ∧
    normalize declPercent 20 ∈ (initRendezvous (caseOf declPercent) 20).2 ∧
    (normalize declPercent 20).Number =
      F32.toInt64 (F32.mul declPercent.Percent (F32.ofInt 20)) ∧
    (normalize declPercent 20).Percent = declPercent.Percent ∧
    ⌊f32_0_3 * (20 : Int)⌋ ≤ (normalize declPercent 20).Number ∧
    (normalize declPercent 20).Number ≤ ⌈f32_0_3 * (20 : Int)⌉ :=
  have h := initRendezvous_percent_branch (caseOf declPercent) 20 _ declPercent f32_0_3
    (mem_caseOf declPercent) rfl rfl rfl (by norm_num [f32_0_3]) (by norm_num [f32_0_3])
    (by decide)
  ⟨by decide!, by decide!, h.1, h.2.1, h.2.2.1, h.2.2.2 (by decide)⟩

/-- C3, as stated, fails.  With `{number: 16777217, percent: 0}` and
`total = 33554435` both conversions round, `float32(Number) = 16777216` and
`float32(total) = 33554436`, and `Percent` becomes `8388607 / 16777216`
(0.49999994), which is not `Number / total` and not the `float32` nearest to it
either, which is `0.5`. -/
theorem initRendezvous_number_branch_counterexample :
    (0 < declWide.Number ∧ declWide.Number ≤ 33554435 ∧ declWide.Percent = F32.fin 0) ∧
    (initRendezvous (caseOf declWide) 33554435).2.map (fun r => (r.Number, r.Percent)) =
      [(16777217, F32.fin (8388607 / 16777216))] ∧
    F32.ofInt 16777217 = F32.fin 16777216 ∧
    F32.ofInt 33554435 = F32.fin 33554436 ∧
    F32.round ((16777217 : ℚ) / 33554435) = F32.fin (1 / 2) ∧
    (8388607 / 16777216 : ℚ) ≠ 16777217 / 33554435 := by
  refine ⟨⟨by decide, by decide, rfl⟩, by decide!, by decide!, by decide!, by decide!,
    by norm_num⟩

/-- C3, amended.  For a declaration with `0 < Number ≤ total` and `Percent == 0`,
`initRendezvous` leaves `Number` unchanged and sets `Percent` to the `float32`
quotient `float32(Number) / float32(total)`.  For every `int64` total that is a
value in `(0, 1]`, the rounded quotient of the two rounded operands, within a
relative error of `2^-22` of `Number / total`; for `total ≤ 2^24`, where both
conversions are exact, it is the `float32` nearest to `Number / total`. -/
theorem initRendezvous_number_branch (tCase : TCase) (total : Int) (s : TStep)
    (r : Rendezvous) (hs : s ∈ tCase.TestSteps) (hr : s.Rendezvous = some r)
    (hN0 : 0 < r.Number) (hNt : r.Number ≤ total) (hp : r.Percent = F32.fin 0) :
    normalize r total ∈ (initRendezvous tCase total).2 ∧
    (normalize r total).Percent = F32.div (F32.ofInt r.Number) (F32.ofInt total) ∧
    (normalize r total).Number = r.Number ∧
    (total < 2 ^ 63 →
      ∃ q : ℚ, (normalize r total).Percent = F32.fin q ∧ 0 < q ∧ q ≤ 1 ∧
        q = F32.roundQ (F32.roundQ (r.Number : ℚ) / F32.roundQ (total : ℚ)) ∧
        |q - (r.Number : ℚ) / (total : ℚ)| ≤ (r.Number : ℚ) / (total : ℚ) / 4194304 ∧
        (total ≤ 2 ^ 24 → q = F32.roundQ ((r.Number : ℚ) / (total : ℚ)))) := by
  have hb1 : percentBranch r = false := by
    cases h : percentBranch r with
    | false => rfl
    | true => exact absurd ((percentBranch_fin r 0 hp).mp h).2.1 (lt_irrefl 0)
  have hb2 : numberBranch r total = true := (numberBranch_fin r total 0 hp).mpr ⟨hN0, hNt, rfl⟩
  have hP : (normalize r total).Percent = F32.div (F32.ofInt r.Number) (F32.ofInt total) := by
    rw [normalize_Percent, normalizeQuorum_number r total hb1 hb2]
  refine ⟨(mem_initRendezvous tCase total _).mpr ⟨s, hs, r, hr, rfl⟩, hP, ?_, ?_⟩
  · rw [normalize_Number, normalizeQuorum_number r total hb1 hb2]
  · intro h63
    obtain ⟨q, hq, hq0, hq1, hqe⟩ := div_number_total r.Number total (by omega) hNt h63
    refine ⟨q, by rw [hP, hq], hq0, hq1, hqe, ?_, ?_⟩
    · rw [hqe]
      exact div_number_near r.Number total (by omega) hNt h63
    · intro h24
      rw [hqe, F32.roundQ_int_exact r.Number hN0 (by omega),
        F32.roundQ_int_exact total (by omega) h24]

/-- Example: `{number: 5, percent: 0}` with `total = 10` gives `Percent = 0.5` and keeps
`Number = 5`. -/
theorem initRendezvous_number_branch_witness :
    (normalize declNumber 10).Percent = F32.fin (1 / 2) ∧
    normalize declNumber 10 ∈ (initRendezvous (caseOf declNumber) 10).2 ∧
    (normalize declNumber 10).Percent = F32.div (F32.ofInt declNumber.Number) (F32.ofInt 10) ∧
    (normalize declNumber 10).Number = declNumber.Number ∧
    ∃ q : ℚ, (normalize declNumber 10).Percent = F32.fin q ∧ 0 < q ∧ q ≤ 1 ∧
      q = F32.roundQ (F32.roundQ (declNumber.Number : ℚ) / F32.roundQ ((10 : Int) : ℚ)) ∧
      |q - (declNumber.Number : ℚ) / ((10 : Int) : ℚ)| ≤
        (declNumber.Number : ℚ) / ((10 : Int) : ℚ) / 4194304 ∧
      ((10 : Int) ≤ 2 ^ 24 → q = F32.roundQ ((declNumber.Number : ℚ) / ((10 : Int) : ℚ))) :=
  have h := initRendezvous_number_branch (caseOf declNumber) 10 _ declNumber
    (mem_caseOf declNumber) rfl (by decide) (by decide) rfl
  ⟨by decide!, h.1, h.2.1, h.2.2.1, h.2.2.2 (by decide)⟩

/-- C4.  A declaration that matches neither normalisation branch is given the
defaults `Number = total` and `Percent = 1.0`. -/
theorem initRendezvous_default_branch (tCase : TCase) (total : Int) (s : TStep)
    (r : Rendezvous) (hs : s ∈ tCase.TestSteps) (hr : s.Rendezvous = some r)
    (h1 : percentBranch r = false) (h2 : numberBranch r total = false) :
    normalize r total ∈ (initRendezvous tCase total).2 ∧
    (normalize r total).Number = total ∧
    (normalize r total).Percent = F32.fin 1 := by
  refine ⟨(mem_initRendezvous tCase total _).mpr ⟨s, hs, r, hr, rfl⟩, ?_, ?_⟩
  · rw [normalize_Number, normalizeQuorum_default r total h1 h2]
  · rw [normalize_Percent, normalizeQuorum_default r total h1 h2]
    rfl

/-- Example: `{number: 999, percent: 0, timeout: -1}` with `total = 10` gives `Number = 10`,
`Percent = 1.0` and `Timeout = 5000`. -/
theorem initRendezvous_default_branch_witness :
    (normalize declBad 10).Timeout = 5000 ∧
    (normalize declBad 10 ∈ (initRendezvous (caseOf declBad) 10).2 ∧
      (normalize declBad 10).Number = 10 ∧
      (normalize declBad 10).Percent = F32.fin 1) :=
  ⟨by decide!,
    initRendezvous_default_branch (caseOf declBad) 10 _ declBad (mem_caseOf declBad) rfl
      (by decide!) (by decide!)⟩

/-- C5.  Whatever the declaration and the total, hence whichever number/percent
branch is taken, `initRendezvous` sets `Timeout` to `5000` when the declared
timeout is `≤ 0` and keeps it when it is `> 0`. -/
theorem initRendezvous_timeout (tCase : TCase) (total : Int) (s : TStep) (r : Rendezvous)
    (hs : s ∈ tCase.TestSteps) (hr : s.Rendezvous = some r) :
    normalize r total ∈ (initRendezvous tCase total).2 ∧
    (normalize r total).Timeout = (if r.Timeout ≤ 0 then 5000 else r.Timeout) :=
  ⟨(mem_initRendezvous tCase total _).mpr ⟨s, hs, r, hr, rfl⟩, normalize_Timeout r total⟩

/-- Example: a declared timeout of `-1` becomes `5000`, in the default branch. -/
theorem initRendezvous_timeout_witness :
    (normalize declBad 10).Timeout = 5000 ∧
    normalize declBad 10 ∈ (initRendezvous (caseOf declBad) 10).2 ∧
    (normalize declBad 10).Timeout = (if declBad.Timeout ≤ 0 then 5000 else declBad.Timeout) :=
  have h := initRendezvous_timeout (caseOf declBad) 10 _ declBad (mem_caseOf declBad) rfl
  ⟨by decide!, h.1, h.2⟩

theorem round_nonpos {q : ℚ} (hq : q ≤ 0) : ∀ r, F32.round q = F32.fin r → r ≤ 0 := by
  intro r hr
  have h0 : F32.roundQ q ≤ 0 := by
    have := F32.roundQ_le_of_grid q 0 (by simpa using hq)
    simpa using this
  unfold F32.round at hr
  simp only at hr
  split_ifs at hr
  cases hr
  exact h0

theorem toInt64_nonpos (x : F32) (h : ∀ q, x = F32.fin q → q ≤ 0) : F32.toInt64 x ≤ 0 := by
  cases x with
  | nan => simp [F32.toInt64]
  | inf n => simp [F32.toInt64]
  | fin q =>
    have hq := h q rfl
    unfold F32.toInt64
    simp only
    split_ifs with h1 h2
    · have : q = 0 := le_antisymm hq h1
      subst this
      simp
    · norm_num
    · have : (⌈q⌉ : ℤ) ≤ 0 := Int.ceil_le.mpr (by simpa using hq)
      exact this
    · norm_num

/-- With a total below `1` the first branch cannot produce a positive number. -/
theorem percent_product_nonpos (p : ℚ) (total : Int) (hp : 0 < p) (ht : total ≤ 0) :
    F32.toInt64 (F32.mul (F32.fin p) (F32.ofInt total)) ≤ 0 := by
  apply toInt64_nonpos
  intro q hq
  have htq : (total : ℚ) ≤ 0 := by exact_mod_cast ht
  cases hof : F32.ofInt total with
  | nan => rw [hof] at hq; simp [F32.mul] at hq
  | inf n =>
    rw [hof] at hq
    simp only [F32.mul] at hq
    split_ifs at hq
  | fin r =>
    have hr : r ≤ 0 := round_nonpos htq r hof
    rw [hof] at hq
    exact round_nonpos (mul_nonpos_of_nonneg_of_nonpos hp.le hr) q hq

/-- C6, as stated, fails: `initRendezvous` has no error result.  With
`total = 0` and the declaration `{number: 999, percent: 0, timeout: -1}` it
returns a one-element list whose entry was repaired to `Number = 0`,
`Percent = 1.0`, `Timeout = 5000`. -/
theorem initRendezvous_total_zero_counterexample :
    (0 : Int) < 1 ∧
    (initRendezvous (caseOf declBad) 0).2 =
      [{ Name := "rendezvous", Percent := F32.fin 1, Number := 0, Timeout := 5000,
         generation := 1 }] := by
  refine ⟨by decide, by decide!⟩

/-- C6, amended.  `initRendezvous` never fails: for every total, below `1` or
not, it returns one repaired entry for every step that declares a rendezvous.
When `total < 1` no entry reaches `Number ≥ 1`. -/
theorem initRendezvous_never_fails (tCase : TCase) (total : Int) :
    (initRendezvous tCase total).2.length =
      (tCase.TestSteps.filter (fun s => s.Rendezvous.isSome)).length ∧
    (total < 1 → ∀ x ∈ (initRendezvous tCase total).2, x.Number ≤ 0) := by
  constructor
  · rw [initRendezvous_list]
    induction tCase.TestSteps with
    | nil => rfl
    | cons s rest ih =>
      cases hs : s.Rendezvous with
      | none => simp [List.filterMap_cons, List.filter_cons, hs, ih]
      | some r => simp [List.filterMap_cons, List.filter_cons, hs, ih]
  · intro ht x hx
    obtain ⟨s, _, r, _, rfl⟩ := (mem_initRendezvous tCase total x).mp hx
    rw [normalize_Number]
    cases hb : percentBranch r with
    | true =>
      rw [normalizeQuorum_percent r total hb]
      simp only
      unfold percentBranch at hb
      simp only [Bool.and_eq_true, decide_eq_true_eq] at hb
      obtain ⟨⟨_, hgt⟩, hle⟩ := hb
      cases hP : r.Percent with
      | nan => rw [hP] at hgt; simp [F32.gt, F32.lt] at hgt
      | inf n =>
        rw [hP] at hgt hle
        cases n <;> simp [F32.gt, F32.le, F32.lt, F32.eq, defaultRendezvousPercent] at hgt hle
      | fin p =>
        rw [hP] at hgt
        have hp : 0 < p := by simpa [F32.gt, F32.lt] using hgt
        exact percent_product_nonpos p total hp (by omega)
    | false =>
      cases hb2 : numberBranch r total with
      | true =>
        unfold numberBranch at hb2
        simp only [Bool.and_eq_true, decide_eq_true_eq] at hb2
        omega
      | false =>
        rw [normalizeQuorum_default r total hb hb2]
        simp only
        omega

/-- Example: with `total = 0` the declaration `{number: 999}` is returned with
`Number = 0`. -/
theorem initRendezvous_never_fails_witness :
    (initRendezvous (caseOf declBad) 0).2.length = 1 ∧ (normalize declBad 0).Number ≤ 0 :=
  have h := initRendezvous_never_fails (caseOf declBad) 0
  ⟨h.1.trans (by decide!), h.2 (by decide) (normalize declBad 0)
    ((mem_initRendezvous _ _ _).mpr ⟨_, mem_caseOf declBad, declBad, rfl, rfl⟩)⟩

/-- C7.  The list returned by `initRendezvous` holds exactly the rendezvous of
the steps that declare one, as the call leaves them, one entry per such step
and in step order: it is the list of the `Rendezvous` fields of the steps after
the call, steps without one contributing nothing.  Those entries are the
normalised declarations of the steps before the call, and the call neither
adds, drops nor reorders steps or declarations. -/
theorem initRendezvous_list_exact (tCase : TCase) (total : Int) :
    (initRendezvous tCase total).2 =
        (initRendezvous tCase total).1.TestSteps.filterMap (fun s => s.Rendezvous) ∧
    (initRendezvous tCase total).2 =
        tCase.TestSteps.filterMap (fun s => s.Rendezvous.map (fun r => normalize r total)) ∧
    (initRendezvous tCase total).1.TestSteps =
        tCase.TestSteps.map
          (fun s => { s with Rendezvous := s.Rendezvous.map (fun r => normalize r total) }) ∧
    (initRendezvous tCase total).2.length =
        (tCase.TestSteps.filter (fun s => s.Rendezvous.isSome)).length := by
  have hsteps : (initRendezvous tCase total).1.TestSteps =
      tCase.TestSteps.map
        (fun s => { s with Rendezvous := s.Rendezvous.map (fun r => normalize r total) }) := by
    unfold initRendezvous
    exact (initRendezvousLoop_spec tCase.TestSteps total []).1
  refine ⟨?_, initRendezvous_list tCase total, hsteps, ?_⟩
  · rw [hsteps, initRendezvous_list, List.filterMap_map]
    rfl
  · rw [initRendezvous_list]
    induction tCase.TestSteps with
    | nil => rfl
    | cons s rest ih =>
      cases hs : s.Rendezvous with
      | none => simp [List.filterMap_cons, List.filter_cons, hs, ih]
      | some r => simp [List.filterMap_cons, List.filter_cons, hs, ih]

/-! ## Step builders: the claim -/

/-- C8.  The step built by `NewStep(name).GET(url).WithParams(params).
WithHeaders(headers).WithCookies(cookies).Validate().AssertEqual(check, expected, msg)`
is built without a nil dereference, its request has `Method = GET`, the given
URL, params, headers and cookies, and its first validator has the given check
path and expected value; with `POST` in place of `GET` the same holds with
`Method = POST`. -/
theorem requestChain_fields (post : Bool) (name url : String) (params : Option (GoMap Any))
    (headers cookies : Option (GoMap String)) (check : String) (expected : Any) (msg : String) :
    ∃ s req v, requestChain post name url params headers cookies check expected msg = some s ∧
      s.step.Request = some req ∧
      req.Method = (if post then httpPOST else httpGET) ∧
      req.URL = url ∧ req.Params = params ∧ req.Headers = headers ∧ req.Cookies = cookies ∧
      s.step.Validators.head? = some v ∧ v.Check = check ∧ v.Expect = expected ∧
      s.step.Name = name := by
  cases post <;>
    exact ⟨_, _, _, rfl, rfl, rfl, rfl, rfl, rfl, rfl, rfl, rfl, rfl, rfl⟩

/-! ## The supervisor: lemmas -/

theorem run_append (i last : Nat) (s : Supervisor) (xs ys : List Event) :
    run i last s (xs ++ ys) = (run i last s xs).bind (fun s1 => run i last s1 ys) := by
  induction xs generalizing s with
  | nil => simp [run]
  | cons x xs ih =>
    simp only [List.cons_append, run]
    cases step i last s x with
    | none => simp
    | some s1 => simp [ih]

theorem run_snoc (i last : Nat) (s s2 : Supervisor) (xs : List Event) (e : Event)
    (h : run i last s (xs ++ [e]) = some s2) :
    ∃ s1, run i last s xs = some s1 ∧ step i last s1 e = some s2 := by
  rw [run_append] at h
  cases h1 : run i last s xs with
  | none => simp [h1] at h
  | some s1 =>
    refine ⟨s1, rfl, ?_⟩
    simp only [h1, Option.some_bind, run] at h
    cases h2 : step i last s1 e with
    | none => simp [h2] at h
    | some s3 => simpa [h2] using h

theorem lastProgress_snoc (evs : List Event) (e : Event) :
    lastProgress (evs ++ [e]) =
      if e.sig = Signal.activate ∨ e.sig = Signal.timerReset then some e.time
      else lastProgress evs := by
  induction evs with
  | nil => simp [lastProgress]
  | cons x xs ih =>
    show lastProgress (x :: (xs ++ [e])) = _
    rw [lastProgress, ih]
    by_cases he : e.sig = Signal.activate ∨ e.sig = Signal.timerReset
    · simp [he]
    · simp [he, lastProgress]

theorem loopHead_select (i last : Nat) (s : Supervisor) (r : Rendezvous)
    (h : s.list[i]? = some r) (hr : r.isReleased = false) :
    loopHead i last s = { s with loc := Loc.select } := by
  unfold loopHead
  simp [h, hr]

theorem releaseBranch_open (i last : Nat) (s : Supervisor) (reason : Reason) (r : Rendezvous)
    (h : s.list[i]? = some r) (hc : r.releaseClosed = false) :
    releaseBranch i last s reason =
      if i = last then
        { s with
          list := (s.list.set i { r.setReleased with releaseClosed := true }).map Rendezvous.reset
          loc := Loc.done
          released := s.released ++ [⟨s.now, reason, { r.setReleased with releaseClosed := true }⟩] }
      else
        { s with
          list := s.list.set i { r.setReleased with releaseClosed := true }
          loc := Loc.waitLast
          released := s.released ++ [⟨s.now, reason, { r.setReleased with releaseClosed := true }⟩] } := by
  have hi : i < s.list.length := by
    by_contra hge
    rw [List.getElem?_eq_none (by omega)] at h
    cases h
  unfold releaseBranch
  simp only [h]
  have hclose : r.setReleased.closeReleaseChan = some { r.setReleased with releaseClosed := true } := by
    unfold Rendezvous.closeReleaseChan Rendezvous.setReleased
    simp [hc]
  rw [hclose]
  simp only
  unfold loopHead
  simp only [List.getElem?_set_self hi, List.getElem?_eq_getElem, List.length_set, hi]
  simp [Rendezvous.isReleased, Rendezvous.setReleased]

theorem timeoutOf_eq (i : Nat) (s : Supervisor) (T : Int)
    (h : s.list[i]?.map (fun r => r.Timeout) = some T) :
    timeoutOf i s = wrapInt64 (T * Millisecond) := by
  unfold timeoutOf
  cases hr : s.list[i]? with
  | none => simp [hr] at h
  | some r =>
    have : r.Timeout = T := by simpa [hr] using h
    simp [this]

theorem filterMap_releaseOf_snoc (evs : List Event) (e : Event) :
    (evs ++ [e]).filterMap releaseOf = evs.filterMap releaseOf ++ (releaseOf e).toList := by
  rw [List.filterMap_append]
  cases h : releaseOf e <;> simp [List.filterMap_cons, h]

/-- A delivery that leaves the supervisor in the `select`: the barrier and the log
are untouched and the timer is set to expire `timeout` after the delivery. -/
theorem cycleInv_progress (i last : Nat) (T : Int) (evs : List Event) (s : Supervisor)
    (e : Event) (r : Rendezvous) (hinv : CycleInv i last T evs s)
    (hrel : s.released = []) (hr : s.list[i]? = some r) (hr1 : r.isReleased = false)
    (hr2 : r.releaseClosed = false)
    (he : e.sig = Signal.activate ∨ e.sig = Signal.timerReset) :
    CycleInv i last T (evs ++ [e])
      (loopHead i last
        { s with
          now := e.time
          timeout := wrapInt64 (T * Millisecond)
          deadline := some (e.time + wrapInt64 (T * Millisecond)) }) := by
  rw [loopHead_select i last
    { s with
      now := e.time
      timeout := wrapInt64 (T * Millisecond)
      deadline := some (e.time + wrapInt64 (T * Millisecond)) } r hr hr1]
  have hnone : releaseOf e = none := by
    unfold releaseOf
    rcases he with h | h <;> rw [h]
  refine ⟨hinv.timeout, by simp, ?_, ?_, by simp, ?_, by simp, by simp⟩
  · rw [filterMap_releaseOf_snoc, hnone]
    simpa using hinv.log
  · exact hinv.marked
  · intro _
    refine ⟨hrel, ⟨r, hr, hr1, hr2⟩, rfl, e.time, ?_, rfl⟩
    rw [lastProgress_snoc, if_pos he]

/-- A release branch taken in the `select`. -/
theorem cycleInv_release (i last : Nat) (T : Int) (evs : List Event) (s : Supervisor)
    (e : Event) (reason : Reason) (dl : Option Int) (hinv : CycleInv i last T evs s)
    (hsel : s.loc = Loc.select) (hreason : releaseOf e = some (e.time, reason)) :
    CycleInv i last T (evs ++ [e])
      (releaseBranch i last { s with now := e.time, deadline := dl } reason) := by
  obtain ⟨hrel, ⟨r, hr, hr1, hr2⟩, _, _⟩ := hinv.inSelect hsel
  have hi : i < s.list.length := by
    by_contra hge
    rw [List.getElem?_eq_none (by omega)] at hr
    cases hr
  have hT : r.Timeout = T := by simpa [hr] using hinv.timeout
  have hlog0 : evs.filterMap releaseOf = [] := by
    rw [← hinv.log, hrel]
    rfl
  rw [releaseBranch_open i last { s with now := e.time, deadline := dl } reason r hr hr2]
  split_ifs with hlast
  · refine ⟨?_, by simp, ?_, ?_, by simp, by simp, ?_, by simp⟩
    · show (((s.list.set i _).map Rendezvous.reset)[i]?).map _ = some T
      rw [List.getElem?_map, List.getElem?_set_self hi]
      simp [Rendezvous.reset, Rendezvous.setReleased, hT]
    · rw [filterMap_releaseOf_snoc, hreason, hlog0, hrel]
      rfl
    · intro rel hmem
      simp only [hrel, List.nil_append, List.mem_singleton] at hmem
      subst hmem
      simp [Rendezvous.isReleased, Rendezvous.setReleased]
    · intro _
      simp [hrel]
  · refine ⟨?_, by simp, ?_, ?_, by simp, by simp, ?_, ?_⟩
    · simp [List.getElem?_set_self hi, Rendezvous.setReleased, hT]
    · rw [filterMap_releaseOf_snoc, hreason, hlog0, hrel]
      rfl
    · intro rel hmem
      simp only [hrel, List.nil_append, List.mem_singleton] at hmem
      subst hmem
      simp [Rendezvous.isReleased, Rendezvous.setReleased]
    · intro _
      simp [hrel]
    · intro _
      refine ⟨hlast, _, List.getElem?_set_self hi, ?_, ?_⟩ <;>
        simp [Rendezvous.isReleased, Rendezvous.setReleased]

/-- Every enabled delivery preserves the invariant of the cycle. -/
theorem cycleInv_step (i last : Nat) (T : Int) (evs : List Event) (s s2 : Supervisor)
    (e : Event) (hinv : CycleInv i last T evs s) (hstep : step i last s e = some s2) :
    CycleInv i last T (evs ++ [e]) s2 := by
  unfold step at hstep
  split_ifs at hstep with hlt
  simp only at hstep
  split at hstep
  · rename_i hloc hsig
    obtain ⟨_, hrel, r, hr, hr1, hr2⟩ := hinv.atStart hloc
    cases hstep
    rw [timeoutOf_eq i s T hinv.timeout]
    exact cycleInv_progress i last T evs s e r hinv hrel hr hr1 hr2 (Or.inl hsig)
  · rename_i hloc hsig
    obtain ⟨hrel, ⟨r, hr, hr1, hr2⟩, hto, _⟩ := hinv.inSelect hloc
    cases hstep
    have := cycleInv_progress i last T evs s e r hinv hrel hr hr1 hr2 (Or.inr hsig)
    rw [← hto] at this
    exact this
  · rename_i hloc hsig
    cases hstep
    have := cycleInv_release i last T evs s e Reason.quorum s.deadline hinv hloc
      (by unfold releaseOf; rw [hsig])
    simpa using this
  · rename_i hloc hsig
    split at hstep
    · cases hstep
    · split_ifs at hstep
      cases hstep
      exact cycleInv_release i last T evs s e Reason.timeout none hinv hloc
        (by unfold releaseOf; rw [hsig])
  · rename_i hloc hsig
    cases hstep
    have hnone : releaseOf e = none := by unfold releaseOf; rw [hsig]
    obtain ⟨hne, r, hr⟩ := hinv.waiting hloc
    refine ⟨hinv.timeout, by simp, ?_, hinv.marked, by simp, by simp, ?_, by simp⟩
    · rw [filterMap_releaseOf_snoc, hnone]
      simpa using hinv.log
    · intro _
      exact hinv.after (Or.inl hloc)
  · cases hstep

/-- The invariant holds along every run of a cycle that starts with the barrier
not released and its release channel open. -/
theorem cycleInv_run (i last : Nat) (list : List Rendezvous) (t0 : Int) (r : Rendezvous)
    (hr : list[i]? = some r) (hr1 : r.isReleased = false) (hr2 : r.releaseClosed = false)
    (evs : List Event) :
    ∀ s, run i last (cycleStart list t0) evs = some s → CycleInv i last r.Timeout evs s := by
  induction evs using List.reverseRecOn with
  | nil =>
    intro s hs
    simp only [run, Option.some.injEq] at hs
    subst hs
    refine ⟨by simp [cycleStart, hr], by simp [cycleStart], rfl, by simp [cycleStart], ?_,
      by simp [cycleStart], by simp [cycleStart], by simp [cycleStart]⟩
    intro _
    exact ⟨rfl, rfl, r, hr, hr1, hr2⟩
  | append_singleton evs e ih =>
    intro s hs
    obtain ⟨s1, h1, h2⟩ := run_snoc i last _ s evs e hs
    exact cycleInv_step i last r.Timeout evs s1 s e (ih s1 h1) h2

theorem run_split (i last : Nat) (s0 s : Supervisor) (pre post : List Event) (e : Event)
    (h : run i last s0 (pre ++ e :: post) = some s) :
    ∃ sp sq, run i last s0 pre = some sp ∧ step i last sp e = some sq ∧
      run i last s0 (pre ++ [e]) = some sq := by
  rw [run_append] at h
  cases h1 : run i last s0 pre with
  | none => simp [h1] at h
  | some sp =>
    simp only [h1, Option.some_bind, run] at h
    cases h2 : step i last sp e with
    | none => simp [h2] at h
    | some sq =>
      refine ⟨sp, sq, rfl, h2, ?_⟩
      rw [run_append, h1]
      simp [run, h2]

/-- A release branch is only taken in the `select`, and `timer.C` only once the
timer has expired. -/
theorem step_release_enabled (i last : Nat) (s s2 : Supervisor) (e : Event)
    (h : step i last s e = some s2) (he : e.sig = Signal.stop ∨ e.sig = Signal.timer) :
    s.loc = Loc.select ∧ (e.sig = Signal.timer → ∃ d, s.deadline = some d ∧ d ≤ e.time) := by
  unfold step at h
  split_ifs at h
  simp only at h
  split at h
  · rename_i hsig; rcases he with h1 | h1 <;> rw [h1] at hsig <;> cases hsig
  · rename_i hsig; rcases he with h1 | h1 <;> rw [h1] at hsig <;> cases hsig
  · rename_i hloc hsig
    exact ⟨hloc, fun ht => by rw [ht] at hsig; cases hsig⟩
  · rename_i hloc hsig
    refine ⟨hloc, fun _ => ?_⟩
    split at h
    · cases h
    · rename_i d hd
      split_ifs at h with hle
      exact ⟨d, hd, hle⟩
  · rename_i hsig; rcases he with h1 | h1 <;> rw [h1] at hsig <;> cases hsig
  · cases h

/-! ## The supervisor: the claims -/

/-- One iteration on its own.  In a cycle of the supervisor that starts with the barrier not released
and its release channel open, and in which no other goroutine writes the
barrier, whatever the deliveries are: `close(releaseChan)` never panics; the
releases performed are exactly the release branches (`stop` or `timer.C`) the
`select` has taken, and there is at most one; each marks the barrier released
and closes its channel; the inner loop has been left exactly when one release
has been performed; and once a release has been performed neither release
branch can be taken again in the cycle.  While the supervisor is in the
`select`, the `stop` branch, when taken, performs the release. -/
theorem supervisor_releases_once (i last : Nat) (list : List Rendezvous) (t0 : Int)
    (r : Rendezvous) (evs : List Event) (s : Supervisor)
    (hr : list[i]? = some r) (hr1 : r.isReleased = false) (hr2 : r.releaseClosed = false)
    (hrun : run i last (cycleStart list t0) evs = some s) :
    s.loc ≠ Loc.panicked ∧
    s.released.map (fun x => (x.time, x.reason)) = evs.filterMap releaseOf ∧
    s.released.length ≤ 1 ∧
    (∀ rel ∈ s.released, rel.barrier.isReleased = true ∧ rel.barrier.releaseClosed = true) ∧
    ((s.loc = Loc.waitLast ∨ s.loc = Loc.done) ↔ s.released.length = 1) ∧
    (s.released ≠ [] → ∀ e, e.sig = Signal.stop ∨ e.sig = Signal.timer →
      step i last s e = none) ∧
    (s.loc = Loc.select → ∀ t, s.now ≤ t →
      ∃ s2, step i last s ⟨t, Signal.stop⟩ = some s2 ∧
        s2.released.map (fun x => (x.time, x.reason)) = [(t, Reason.quorum)]) := by
  have hinv := cycleInv_run i last list t0 r hr hr1 hr2 evs s hrun
  have hempty : s.loc = Loc.waitActivate ∨ s.loc = Loc.select → s.released = [] := by
    rintro (h | h)
    · exact (hinv.atStart h).2.1
    · exact (hinv.inSelect h).1
  have hcases : s.loc = Loc.waitActivate ∨ s.loc = Loc.select ∨ s.loc = Loc.waitLast ∨
      s.loc = Loc.done := by
    have := hinv.noPanic
    cases hl : s.loc <;> simp_all
  refine ⟨hinv.noPanic, hinv.log, ?_, hinv.marked, ?_, ?_, ?_⟩
  · rcases hcases with h | h | h | h
    · simp [hempty (Or.inl h)]
    · simp [hempty (Or.inr h)]
    · exact (hinv.after (Or.inl h)).le
    · exact (hinv.after (Or.inr h)).le
  · constructor
    · exact hinv.after
    · intro hlen
      rcases hcases with h | h | h | h
      · simp [hempty (Or.inl h)] at hlen
      · simp [hempty (Or.inr h)] at hlen
      · exact Or.inl h
      · exact Or.inr h
  · intro hne e he
    cases hstep : step i last s e with
    | none => rfl
    | some s2 =>
      exact absurd (hempty (Or.inr (step_release_enabled i last s s2 e hstep he).1)) hne
  · intro hsel t ht
    have hstep : step i last s ⟨t, Signal.stop⟩ =
        some (releaseBranch i last { s with now := t } Reason.quorum) := by
      unfold step
      simp only [if_neg (not_lt.mpr ht), hsel]
    refine ⟨_, hstep, ?_⟩
    have hnext := cycleInv_step i last r.Timeout evs s _ ⟨t, Signal.stop⟩ hinv hstep
    rw [hnext.log, filterMap_releaseOf_snoc, ← hinv.log, hempty (Or.inr hsel)]
    rfl

/-- Example: the first barrier of a group of two, `number = 5`, is released once,
through the `stop` branch, when the quorum is reached at 4 ms. -/
theorem supervisor_releases_once_witness :
    quorumRunEnd.loc ≠ Loc.panicked ∧
    quorumRunEnd.released.map (fun x => (x.time, x.reason)) =
      [(4 * Millisecond, Reason.quorum)] ∧
    quorumRunEnd.released.length ≤ 1 ∧
    (∀ rel ∈ quorumRunEnd.released,
      rel.barrier.isReleased = true ∧ rel.barrier.releaseClosed = true) ∧
    ((quorumRunEnd.loc = Loc.waitLast ∨ quorumRunEnd.loc = Loc.done) ↔
      quorumRunEnd.released.length = 1) ∧
    step 0 1 quorumRunEnd (atMs 60004 Signal.timer) = none :=
  have h := supervisor_releases_once 0 1 [barrier5, barrier200] 0 barrier5 quorumRun
    quorumRunEnd rfl (by decide!) (by decide!) (by decide!)
  ⟨h.1, h.2.1.trans (by decide!), h.2.2.1, h.2.2.2.1, h.2.2.2.2.1,
    h.2.2.2.2.2.1 (by decide!) _ (Or.inr rfl)⟩

theorem wrapInt64_of_range (n : Int) (h0 : -2 ^ 63 ≤ n) (h1 : n < 2 ^ 63) : wrapInt64 n = n := by
  unfold wrapInt64
  omega

/-- C10: the code at the failing input, a timeout whose duration overflows.  With
`Timeout = 9223372036855` ms the product
`time.Duration(rendezvous.Timeout) * time.Millisecond` wraps around to
`-9223372036854551616` ns, so after the progress signal at time 0 the timer has
already expired and the timeout release comes 1 ns after the last observed
arrival, not a full `Timeout` after it. -/
theorem supervisor_timeout_overflow_counterexample :
    (run 0 0 (cycleStart [barrierHuge] 0) hugeRun).map
        (fun s => (s.loc, s.timeout, s.released.map (fun x => (x.time, x.reason)))) =
      some (Loc.done, -9223372036854551616, [(1, Reason.timeout)]) ∧
    (run 0 0 (cycleStart [barrierHuge] 0) (hugeRun.take 2)).map (fun s => s.deadline) =
      some (some (-9223372036854551616)) ∧
    lastProgress (hugeRun.take 2) = some 0 ∧
    barrierHuge.Timeout = 9223372036855 ∧
    ¬ (0 + barrierHuge.Timeout * Millisecond ≤ 1) := by
  refine ⟨by decide!, by decide!, by decide!, by decide!, by decide!⟩

/-- The quiescence timeout where the duration does not overflow.  For a barrier
whose timeout in nanoseconds fits an `int64`
(`Timeout ≤ 9223372036854` ms), in a cycle of the supervisor that starts with
the barrier not released: every progress signal the `select` takes leaves the
supervisor in the `select` with the barrier not released, nothing released, and
the timer set to expire a full `Timeout` after the signal; and every `timer.C`
delivery, the only way to a timeout release, comes at least a full `Timeout`
after the last arrival observed before it (the activation or a progress
signal), not after the activation alone.  The timer is the one the code sets:
`time.NewTimer(timeout)` at the activation and `timer.Reset(timeout)` at each
progress signal, a timer expiring `timeout` after it was last set. -/
theorem supervisor_timeout_quiescence (i last : Nat) (list : List Rendezvous) (t0 : Int)
    (r : Rendezvous) (evs : List Event) (s : Supervisor)
    (hr : list[i]? = some r) (hr1 : r.isReleased = false) (hr2 : r.releaseClosed = false)
    (hT0 : -2 ^ 63 ≤ r.Timeout * Millisecond) (hT1 : r.Timeout * Millisecond < 2 ^ 63)
    (hrun : run i last (cycleStart list t0) evs = some s) :
    (∀ pre t post, evs = pre ++ ⟨t, Signal.timerReset⟩ :: post →
      ∃ sq, run i last (cycleStart list t0) (pre ++ [⟨t, Signal.timerReset⟩]) = some sq ∧
        sq.loc = Loc.select ∧ sq.deadline = some (t + r.Timeout * Millisecond) ∧
        sq.released = [] ∧
        ∃ b, sq.list[i]? = some b ∧ b.isReleased = false ∧ b.releaseClosed = false) ∧
    (∀ pre t post, evs = pre ++ ⟨t, Signal.timer⟩ :: post →
      ∃ tp, lastProgress pre = some tp ∧ tp + r.Timeout * Millisecond ≤ t) ∧
    (∀ rel ∈ s.released, rel.reason = Reason.timeout →
      ∃ pre post tp, evs = pre ++ ⟨rel.time, Signal.timer⟩ :: post ∧
        lastProgress pre = some tp ∧ tp + r.Timeout * Millisecond ≤ rel.time) := by
  have hw : wrapInt64 (r.Timeout * Millisecond) = r.Timeout * Millisecond :=
    wrapInt64_of_range _ hT0 hT1
  have hquiet : ∀ pre t post, evs = pre ++ ⟨t, Signal.timer⟩ :: post →
      ∃ tp, lastProgress pre = some tp ∧ tp + r.Timeout * Millisecond ≤ t := by
    intro pre t post hevs
    rw [hevs] at hrun
    obtain ⟨sp, sq, hpre, hstep, _⟩ := run_split i last _ s pre post _ hrun
    have hinv := cycleInv_run i last list t0 r hr hr1 hr2 pre sp hpre
    obtain ⟨hsel, hd⟩ := step_release_enabled i last sp sq _ hstep (Or.inr rfl)
    obtain ⟨d, hd1, hd2⟩ := hd rfl
    obtain ⟨_, _, _, tp, htp, hdl⟩ := hinv.inSelect hsel
    rw [hdl, hw] at hd1
    cases hd1
    exact ⟨tp, htp, hd2⟩
  refine ⟨?_, hquiet, ?_⟩
  · intro pre t post hevs
    rw [hevs] at hrun
    obtain ⟨sp, sq, hpre, hstep, hrunq⟩ := run_split i last _ s pre post _ hrun
    have hinvq := cycleInv_run i last list t0 r hr hr1 hr2 _ sq hrunq
    have hsel : sq.loc = Loc.select := by
      have hinv := cycleInv_run i last list t0 r hr hr1 hr2 pre sp hpre
      unfold step at hstep
      split_ifs at hstep
      simp only at hstep
      split at hstep
      · rename_i hsig; cases hsig
      · rename_i hloc _
        obtain ⟨_, ⟨b, hb, hb1, _⟩, _⟩ := hinv.inSelect hloc
        cases hstep
        rw [loopHead_select i last
          { sp with now := t, deadline := some (t + sp.timeout) } b hb hb1]
      · rename_i hsig; cases hsig
      · rename_i hsig; cases hsig
      · rename_i hsig; cases hsig
      · cases hstep
    obtain ⟨hrel, hb, _, tp, htp, hdl⟩ := hinvq.inSelect hsel
    refine ⟨sq, hrunq, hsel, ?_, hrel, hb⟩
    rw [lastProgress_snoc, if_pos (Or.inr rfl)] at htp
    cases htp
    rw [hdl, hw]
  · intro rel hmem hreason
    have hinv := cycleInv_run i last list t0 r hr hr1 hr2 evs s hrun
    have hin : (rel.time, Reason.timeout) ∈ evs.filterMap releaseOf := by
      rw [← hinv.log, ← hreason]
      exact List.mem_map_of_mem (fun x => (x.time, x.reason)) hmem
    obtain ⟨e, he, hrel⟩ := List.mem_filterMap.mp hin
    have hev : e = ⟨rel.time, Signal.timer⟩ := by
      cases e with
      | mk time sig =>
        cases sig <;> simp [releaseOf] at hrel
        simp [hrel]
    subst hev
    obtain ⟨pre, post, hsplit⟩ := List.append_of_mem he
    obtain ⟨tp, h1, h2⟩ := hquiet pre rel.time post hsplit
    exact ⟨pre, post, tp, hsplit, h1, h2⟩

/-- Example: with `timeout = 200` and one arrival every 100 ms from 100 ms to 900 ms,
the timeout release comes at 1100 ms, 200 ms after the ninth arrival; a tenth
arrival at 1000 ms would have set the timer to expire at 1200 ms. -/
theorem supervisor_timeout_quiescence_witness :
    run 0 0 (cycleStart [barrier200] 0) slowRamp = some slowRampEnd ∧
    (∃ sq, run 0 0 (cycleStart [barrier200] 0)
        ((slowRamp.take 10) ++ [⟨1000 * Millisecond, Signal.timerReset⟩]) = some sq ∧
      sq.loc = Loc.select ∧
      sq.deadline = some (1000 * Millisecond + barrier200.Timeout * Millisecond) ∧
      sq.released = [] ∧
      ∃ b, sq.list[0]? = some b ∧ b.isReleased = false ∧ b.releaseClosed = false) ∧
    (∃ tp, lastProgress (slowRamp.take 10) = some tp ∧
      tp + barrier200.Timeout * Millisecond ≤ 1100 * Millisecond) ∧
    (∃ pre post tp, slowRamp = pre ++ ⟨1100 * Millisecond, Signal.timer⟩ :: post ∧
      lastProgress pre = some tp ∧ tp + barrier200.Timeout * Millisecond ≤ 1100 * Millisecond) :=
  have h := supervisor_timeout_quiescence 0 0 [barrier200] 0 barrier200 slowRamp slowRampEnd
    rfl (by decide!) (by decide!) (by decide!) (by decide!) (by decide!)
  have h2 := supervisor_timeout_quiescence 0 0 [barrier200] 0 barrier200
    ((slowRamp.take 10) ++ [⟨1000 * Millisecond, Signal.timerReset⟩, atMs 1200 Signal.timer])
    { slowRampEnd with
      now := 1200 * Millisecond
      released := [⟨1200 * Millisecond, Reason.timeout,
        { barrier200 with releasedFlag := 1, releaseClosed := true }⟩] }
    rfl (by decide!) (by decide!) (by decide!) (by decide!) (by decide!)
  ⟨by decide!, h2.1 (slowRamp.take 10) (1000 * Millisecond) [atMs 1200 Signal.timer] rfl,
    h.2.1 (slowRamp.take 10) (1100 * Millisecond) [] rfl,
    h.2.2 _ (List.mem_singleton.mpr rfl) rfl⟩

/-! ## `initRendezvous` and `waitRendezvous`: further claims -/

theorem rendezvousSliceLoop_spec (steps : List TStep) (total : Int) (acc : Slice Rendezvous) :
    rendezvousSliceLoop steps total acc =
      if steps.filterMap (fun s => s.Rendezvous.map (fun r => normalize r total)) = [] then acc
      else some (acc.getD [] ++
        steps.filterMap (fun s => s.Rendezvous.map (fun r => normalize r total))) := by
  induction steps generalizing acc with
  | nil => simp [rendezvousSliceLoop]
  | cons s rest ih =>
    unfold rendezvousSliceLoop
    cases hs : s.Rendezvous with
    | none => simp [ih, List.filterMap_cons, hs]
    | some r =>
      simp only [ih, List.filterMap_cons, hs, Option.map_some']
      cases acc with
      | none =>
        by_cases hrest : rest.filterMap (fun s => s.Rendezvous.map (fun r => normalize r total)) = []
        · simp [Slice.append, hrest]
        · simp [Slice.append, hrest]
      | some l =>
        by_cases hrest : rest.filterMap (fun s => s.Rendezvous.map (fun r => normalize r total)) = []
        · simp [Slice.append, hrest]
        · simp [Slice.append, hrest]

/-- C14.  The slice returned by `initRendezvous` is nil exactly when no step
declares a rendezvous; otherwise it is not nil and not empty (it holds the
normalised declarations).  Hence `waitRendezvous` applied to it never indexes
out of range: it starts nothing for the nil slice and otherwise one supervisor
per barrier, each with the final element as `lastRendezvous`.  An empty slice
that is not nil, which `initRendezvous` never returns, would make it panic. -/
theorem initRendezvous_nil_or_nonempty (tCase : TCase) (total : Int) :
    (initRendezvousSlice tCase total = none ↔ ∀ s ∈ tCase.TestSteps, s.Rendezvous = none) ∧
    (∀ l, initRendezvousSlice tCase total = some l →
      l ≠ [] ∧ l = (initRendezvous tCase total).2 ∧ l.length - 1 < l.length ∧
      waitRendezvous (initRendezvousSlice tCase total) =
        some ((List.range l.length).map (fun i => (i, l.length - 1)))) ∧
    (initRendezvousSlice tCase total = none →
      waitRendezvous (initRendezvousSlice tCase total) = some []) ∧
    waitRendezvous (initRendezvousSlice tCase total) ≠ none ∧
    waitRendezvous (some []) = none := by
  have hspec : initRendezvousSlice tCase total =
      if (initRendezvous tCase total).2 = [] then none
      else some (initRendezvous tCase total).2 := by
    unfold initRendezvousSlice
    rw [rendezvousSliceLoop_spec, initRendezvous_list]
    simp
  have hnil : (initRendezvous tCase total).2 = [] ↔ ∀ s ∈ tCase.TestSteps, s.Rendezvous = none := by
    rw [initRendezvous_list, List.filterMap_eq_nil_iff]
    constructor
    · intro h s hs
      have := h s hs
      cases hr : s.Rendezvous with
      | none => rfl
      | some r => simp [hr] at this
    · intro h s hs
      simp [h s hs]
  have hsome : ∀ l, initRendezvousSlice tCase total = some l →
      l ≠ [] ∧ l = (initRendezvous tCase total).2 := by
    intro l hl
    rw [hspec] at hl
    split_ifs at hl with h
    cases hl
    exact ⟨h, rfl⟩
  refine ⟨?_, ?_, ?_, ?_, rfl⟩
  · rw [hspec, ← hnil]
    split_ifs with h <;> simp [h]
  · intro l hl
    obtain ⟨hne, heq⟩ := hsome l hl
    have hlen : 0 < l.length := List.length_pos.mpr hne
    refine ⟨hne, heq, by omega, ?_⟩
    rw [hl]
    unfold waitRendezvous
    simp [Nat.ne_of_gt hlen]
  · intro h
    rw [h]
    rfl
  · cases hsl : initRendezvousSlice tCase total with
    | none => simp [waitRendezvous]
    | some l =>
      obtain ⟨hne, _⟩ := hsome l hsl
      have hlen : 0 < l.length := List.length_pos.mpr hne
      unfold waitRendezvous
      simp [Nat.ne_of_gt hlen]

theorem initRendezvous_caseOf (r : Rendezvous) (total : Int) :
    initRendezvous (caseOf r) total = (caseOf (normalize r total), [normalize r total]) := by
  simp [initRendezvous, initRendezvousLoop, caseOf]

/-- C15.  Normalisation is not idempotent.  A declaration in the number branch
(`0 < Number ≤ total`, `Percent == 0`) is rewritten in place to a `Percent > 0`;
a second run of `initRendezvous` on the same test case then finds both fields
set, takes the default branch and returns `Number = total`, `Percent = 1.0`,
which differs from the first result as soon as `Number < total`. -/
theorem initRendezvous_not_idempotent (r : Rendezvous) (total : Int) (h0 : 0 < r.Number)
    (hle : r.Number ≤ total) (h63 : total < 2 ^ 63) (hp : r.Percent = F32.fin 0) :
    (initRendezvous (caseOf r) total).2.map (fun x => (x.Number, x.Percent)) =
      [(r.Number, F32.div (F32.ofInt r.Number) (F32.ofInt total))] ∧
    (initRendezvous (initRendezvous (caseOf r) total).1 total).2.map
        (fun x => (x.Number, x.Percent)) = [(total, F32.fin 1)] ∧
    (r.Number < total →
      (initRendezvous (initRendezvous (caseOf r) total).1 total).2 ≠
        (initRendezvous (caseOf r) total).2) := by
  have hb1 : percentBranch r = false := by
    cases h : percentBranch r with
    | false => rfl
    | true => exact absurd ((percentBranch_fin r 0 hp).mp h).2.1 (lt_irrefl 0)
  have hb2 : numberBranch r total = true := (numberBranch_fin r total 0 hp).mpr ⟨h0, hle, rfl⟩
  have hN : (normalize r total).Number = r.Number := by
    rw [normalize_Number, normalizeQuorum_number r total hb1 hb2]
  have hP : (normalize r total).Percent = F32.div (F32.ofInt r.Number) (F32.ofInt total) := by
    rw [normalize_Percent, normalizeQuorum_number r total hb1 hb2]
  obtain ⟨q, hq, hq0, _, _⟩ := div_number_total r.Number total (by omega) hle h63
  have hPq : (normalize r total).Percent = F32.fin q := by rw [hP, hq]
  have hc1 : percentBranch (normalize r total) = false := by
    cases h : percentBranch (normalize r total) with
    | false => rfl
    | true =>
      have := ((percentBranch_fin _ q hPq).mp h).1
      omega
  have hc2 : numberBranch (normalize r total) total = false := by
    cases h : numberBranch (normalize r total) total with
    | false => rfl
    | true =>
      have := ((numberBranch_fin _ total q hPq).mp h).2.2
      exact absurd this hq0.ne'
  have hN2 : (normalize (normalize r total) total).Number = total := by
    rw [normalize_Number, normalizeQuorum_default _ total hc1 hc2]
  have hP2 : (normalize (normalize r total) total).Percent = F32.fin 1 := by
    rw [normalize_Percent, normalizeQuorum_default _ total hc1 hc2]
    rfl
  rw [initRendezvous_caseOf, initRendezvous_caseOf]
  refine ⟨by simp [hN, hP], by simp [hN2, hP2], ?_⟩
  intro hlt heq
  simp only [List.cons.injEq, and_true] at heq
  have := congrArg Rendezvous.Number heq
  rw [hN2, hN] at this
  omega

/-- Example: `{number: 5, percent: 0}` with `total = 10` is normalised to
`Number = 5`, `Percent = 0.5`; a second run changes it to `Number = 10`,
`Percent = 1.0`. -/
theorem initRendezvous_not_idempotent_witness :
    (initRendezvous (caseOf declNumber) 10).2.map (fun x => (x.Number, x.Percent)) =
      [(5, F32.fin (1 / 2))] ∧
    (initRendezvous (initRendezvous (caseOf declNumber) 10).1 10).2.map
        (fun x => (x.Number, x.Percent)) = [(10, F32.fin 1)] ∧
    (initRendezvous (initRendezvous (caseOf declNumber) 10).1 10).2 ≠
      (initRendezvous (caseOf declNumber) 10).2 :=
  have h := initRendezvous_not_idempotent declNumber 10 (by decide) (by decide) (by decide) rfl
  ⟨h.1.trans (by decide!), h.2.1, h.2.2 (by decide)⟩

/-! ## `summary.go`: lemmas and claims -/

theorem wrapInt64_add_left (a b : Int) : wrapInt64 (wrapInt64 a + b) = wrapInt64 (a + b) := by
  unfold wrapInt64
  omega

theorem wrapInt64_inInt64 (a : Int) : inInt64 (wrapInt64 a) := by
  unfold inInt64 wrapInt64
  omega

theorem wrapInt64_of_inInt64 {a : Int} (h : inInt64 a) : wrapInt64 a = a := by
  unfold inInt64 at h
  unfold wrapInt64
  omega

theorem appendAll_append (s : Summary) (xs ys : List testCaseSummary) :
    appendAll s (xs ++ ys) = (appendAll s xs).bind (fun s1 => appendAll s1 ys) := by
  induction xs generalizing s with
  | nil => simp [appendAll]
  | cons x xs ih =>
    simp only [List.cons_append, appendAll]
    cases s.appendCaseSummary x with
    | none => simp
    | some s1 => simp [ih]

/-- One `appendCaseSummary` on summaries whose `Stat` pointers are not nil. -/
theorem appendCaseSummary_spec (s : Summary) (st : stat) (c : testCaseSummary) (cs : testStepStat)
    (hs : s.Stat = some st) (hc : c.Stat = some cs) :
    ∃ s1 st1, s.appendCaseSummary c = some s1 ∧ s1.Stat = some st1 ∧
      s1.Success = (s.Success && c.Success) ∧
      s1.Details = s.Details ++ [c] ∧ s1.Time = s.Time ∧ s1.Platform = s.Platform ∧
      st1.TestCases.Total = wrapInt64 (st.TestCases.Total + 1) ∧
      st1.TestCases.Success =
        (if c.Success then wrapInt64 (st.TestCases.Success + 1) else st.TestCases.Success) ∧
      st1.TestCases.Fail =
        (if c.Success then st.TestCases.Fail else wrapInt64 (st.TestCases.Fail + 1)) ∧
      st1.TestSteps.Total = wrapInt64 (st.TestSteps.Total + (c.Records.length : Int)) ∧
      st1.TestSteps.Successes = wrapInt64 (st.TestSteps.Successes + cs.Successes) ∧
      st1.TestSteps.Failures = wrapInt64 (st.TestSteps.Failures + cs.Failures) := by
  unfold Summary.appendCaseSummary
  simp only [hs, hc]
  refine ⟨_, _, rfl, rfl, ?_, rfl, rfl, rfl, rfl, rfl, rfl, rfl, rfl, rfl⟩
  cases s.Success <;> cases c.Success <;> rfl

/-- What a sequence of appends does to a summary whose counters are `int` values. -/
theorem appendAll_spec (cases : List testCaseSummary) (hstat : ∀ c ∈ cases, c.Stat ≠ none) :
    ∀ (s : Summary) (st : stat), s.Stat = some st →
      inInt64 st.TestCases.Total → inInt64 st.TestCases.Success → inInt64 st.TestCases.Fail →
      inInt64 st.TestSteps.Total → inInt64 st.TestSteps.Successes →
      inInt64 st.TestSteps.Failures →
      ∃ s2 st2, appendAll s cases = some s2 ∧ s2.Stat = some st2 ∧
        s2.Success = (s.Success && cases.all (fun c => c.Success)) ∧
        s2.Details = s.Details ++ cases ∧
        s2.Time = s.Time ∧ s2.Platform = s.Platform ∧
        st2.TestCases.Total = wrapInt64 (st.TestCases.Total + (cases.length : Int)) ∧
        st2.TestCases.Success = wrapInt64 (st.TestCases.Success + countSuccess cases) ∧
        st2.TestCases.Fail = wrapInt64 (st.TestCases.Fail + countFail cases) ∧
        st2.TestSteps.Total = wrapInt64 (st.TestSteps.Total + sumRecords cases) ∧
        st2.TestSteps.Successes =
          wrapInt64 (st.TestSteps.Successes + sumStat (fun x => x.Successes) cases) ∧
        st2.TestSteps.Failures =
          wrapInt64 (st.TestSteps.Failures + sumStat (fun x => x.Failures) cases) := by
  induction cases with
  | nil =>
    intro s st hs h1 h2 h3 h4 h5 h6
    refine ⟨s, st, rfl, hs, by simp, by simp, rfl, rfl, ?_, ?_, ?_, ?_, ?_, ?_⟩ <;>
      simp [countSuccess, countFail, sumRecords, sumStat, wrapInt64_of_inInt64, *]
  | cons c rest ih =>
    intro s st hs h1 h2 h3 h4 h5 h6
    have hc : c.Stat ≠ none := hstat c (List.mem_cons_self _ _)
    obtain ⟨cs, hcs⟩ := Option.ne_none_iff_exists'.mp hc
    obtain ⟨s1, st1, hstep, hst1, f0, f1, f2, f3, g1, g2, g3, g4, g5, g6⟩ :=
      appendCaseSummary_spec s st c cs hs hcs
    have hrest : ∀ x ∈ rest, x.Stat ≠ none := fun x hx => hstat x (List.mem_cons_of_mem _ hx)
    obtain ⟨s2, st2, hrun, hst2, hsucc, hdet, htime, hplat, e1, e2, e3, e4, e5, e6⟩ :=
      ih hrest s1 st1 hst1 (g1 ▸ wrapInt64_inInt64 _)
        (by rw [g2]; split_ifs; exact wrapInt64_inInt64 _; exact h2)
        (by rw [g3]; split_ifs; exact h3; exact wrapInt64_inInt64 _)
        (g4 ▸ wrapInt64_inInt64 _) (g5 ▸ wrapInt64_inInt64 _) (g6 ▸ wrapInt64_inInt64 _)
    refine ⟨s2, st2, ?_, hst2, ?_, ?_, htime.trans f2, hplat.trans f3, ?_, ?_, ?_, ?_, ?_, ?_⟩
    · simp only [appendAll, hstep, Option.some_bind]
      exact hrun
    · rw [hsucc, f0]
      simp [Bool.and_assoc]
    · rw [hdet, f1]
      simp
    · rw [e1, g1, wrapInt64_add_left]
      congr 1
      simp only [List.length_cons]
      push_cast
      ring
    · rw [e2, g2]
      by_cases hcS : c.Success = true
      · rw [if_pos hcS, wrapInt64_add_left]
        congr 1
        simp only [countSuccess, List.filter_cons, hcS, if_true, List.length_cons]
        push_cast
        ring
      · rw [if_neg hcS]
        congr 1
        simp [countSuccess, List.filter_cons, hcS]
    · rw [e3, g3]
      by_cases hcS : c.Success = true
      · rw [if_pos hcS]
        congr 1
        simp [countFail, List.filter_cons, hcS]
      · rw [if_neg hcS, wrapInt64_add_left]
        congr 1
        simp only [Bool.not_eq_true] at hcS
        simp only [countFail, List.filter_cons, hcS, Bool.not_false, if_true, List.length_cons]
        push_cast
        ring
    · rw [e4, g4, wrapInt64_add_left]
      congr 1
      simp only [sumRecords, List.map_cons, List.sum_cons]
      ring
    · rw [e5, g5, wrapInt64_add_left]
      congr 1
      simp only [sumStat, List.map_cons, List.sum_cons, hcs]
      ring
    · rw [e6, g6, wrapInt64_add_left]
      congr 1
      simp only [sumStat, List.map_cons, List.sum_cons, hcs]
      ring

theorem inInt64_zero : inInt64 0 := by
  unfold inInt64
  omega

theorem countSuccess_add_countFail (cases : List testCaseSummary) :
    countSuccess cases + countFail cases = (cases.length : Int) := by
  induction cases with
  | nil => rfl
  | cons c rest ih =>
    unfold countSuccess countFail at ih ⊢
    cases hc : c.Success <;> simp [List.filter_cons, hc] <;> omega

theorem countSuccess_nonneg (cases : List testCaseSummary) : 0 ≤ countSuccess cases := by
  unfold countSuccess
  exact Int.natCast_nonneg _

theorem countFail_nonneg (cases : List testCaseSummary) : 0 ≤ countFail cases := by
  unfold countFail
  exact Int.natCast_nonneg _

/-- A fresh summary with the appends of `cases` done. -/
theorem appendAll_newOutSummary (version goVersion osArch : String) (now : Int)
    (cases : List testCaseSummary) (hstat : ∀ c ∈ cases, c.Stat ≠ none) :
    ∃ s st, appendAll (newOutSummary version goVersion osArch now) cases = some s ∧
      s.Stat = some st ∧
      s.Success = cases.all (fun c => c.Success) ∧
      s.Details = cases ∧
      st.TestCases.Total = wrapInt64 (cases.length : Int) ∧
      st.TestCases.Success = wrapInt64 (countSuccess cases) ∧
      st.TestCases.Fail = wrapInt64 (countFail cases) ∧
      st.TestSteps.Total = wrapInt64 (sumRecords cases) ∧
      st.TestSteps.Successes = wrapInt64 (sumStat (fun x => x.Successes) cases) ∧
      st.TestSteps.Failures = wrapInt64 (sumStat (fun x => x.Failures) cases) := by
  obtain ⟨s, st, hrun, hst, hsucc, hdet, _, _, e1, e2, e3, e4, e5, e6⟩ :=
    appendAll_spec cases hstat (newOutSummary version goVersion osArch now) {} rfl
      inInt64_zero inInt64_zero inInt64_zero inInt64_zero inInt64_zero inInt64_zero
  refine ⟨s, st, hrun, hst, ?_, ?_, ?_, ?_, ?_, ?_, ?_, ?_⟩
  · rw [hsucc]
    simp [newOutSummary]
  · rw [hdet]
    simp [newOutSummary]
  · simpa using e1
  · simpa using e2
  · simpa using e3
  · simpa using e4
  · simpa using e5
  · simpa using e6

/-- C16.  Appending case summaries (whose `Stat` is not nil, as `newSummary()`
makes them) to a fresh summary from `newOutSummary` always succeeds, and the
final `Success` is true if and only if every appended summary has
`Success = true`; once `Success` has become false after some of the appends, it
is false at the end. -/
theorem appendCaseSummary_success (version goVersion osArch : String) (now : Int)
    (cases : List testCaseSummary) (hstat : ∀ c ∈ cases, c.Stat ≠ none) :
    ∃ s, appendAll (newOutSummary version goVersion osArch now) cases = some s ∧
      (s.Success = true ↔ ∀ c ∈ cases, c.Success = true) ∧
      ∀ pre post sp, cases = pre ++ post →
        appendAll (newOutSummary version goVersion osArch now) pre = some sp →
        sp.Success = false → s.Success = false := by
  obtain ⟨s, st, hrun, _, hsucc, _⟩ :=
    appendAll_newOutSummary version goVersion osArch now cases hstat
  refine ⟨s, hrun, ?_, ?_⟩
  · rw [hsucc, List.all_eq_true]
  · intro pre post sp hsplit hpre hfalse
    have hpreStat : ∀ c ∈ pre, c.Stat ≠ none := fun c hc =>
      hstat c (by rw [hsplit]; exact List.mem_append_left _ hc)
    obtain ⟨sp2, _, hrun2, _, hsucc2, _⟩ :=
      appendAll_newOutSummary version goVersion osArch now pre hpreStat
    rw [hpre] at hrun2
    cases hrun2
    rw [hsucc, hsplit, List.all_append, ← hsucc2, hfalse]
    rfl

/-- Example: of three appended summaries the second has failed; `Success` is
false after the second append and false at the end. -/
theorem appendCaseSummary_success_witness :
    ∃ s, appendAll (newOutSummary "v4" "go1.17" "linux-amd64" 0) sampleCases = some s ∧
      s.Success = false ∧
      (s.Success = true ↔ ∀ c ∈ sampleCases, c.Success = true) ∧
      (appendAll (newOutSummary "v4" "go1.17" "linux-amd64" 0) (sampleCases.take 1)).map
        (fun x => x.Success) = some true ∧
      (appendAll (newOutSummary "v4" "go1.17" "linux-amd64" 0) (sampleCases.take 2)).map
        (fun x => x.Success) = some false :=
  have h := appendCaseSummary_success "v4" "go1.17" "linux-amd64" 0 sampleCases (by decide)
  match h with
  | ⟨s, hrun, hiff, hsticky⟩ =>
    ⟨s, hrun, by
      cases hs : s.Success with
      | false => rfl
      | true => exact absurd (hiff.mp hs) (by decide), hiff, by decide, by decide⟩

/-- C17.  Appending case summaries (whose `Stat` is not nil) to a fresh summary
from `newOutSummary` keeps the counters in step with `Details`: `Details` lists
the appended summaries in append order, `Stat.TestCases.Total` is their number
and equals `Success + Fail`, which count the successful and the failed ones;
`Stat.TestSteps.Total`, `Successes` and `Failures` are the sums of
`len(Records)`, `Stat.Successes` and `Stat.Failures` over them, taken as Go adds
`int` values, hence exactly those sums whenever they fit an `int`.  A Go slice
has fewer than `2^63` elements. -/
theorem appendCaseSummary_counts (version goVersion osArch : String) (now : Int)
    (cases : List testCaseSummary) (hstat : ∀ c ∈ cases, c.Stat ≠ none)
    (hlen : (cases.length : Int) < 2 ^ 63) :
    ∃ s st, appendAll (newOutSummary version goVersion osArch now) cases = some s ∧
      s.Stat = some st ∧
      s.Details = cases ∧
      st.TestCases.Total = (s.Details.length : Int) ∧
      st.TestCases.Total = st.TestCases.Success + st.TestCases.Fail ∧
      st.TestCases.Success = countSuccess cases ∧
      st.TestCases.Fail = countFail cases ∧
      st.TestSteps.Total = wrapInt64 (sumRecords cases) ∧
      st.TestSteps.Successes = wrapInt64 (sumStat (fun x => x.Successes) cases) ∧
      st.TestSteps.Failures = wrapInt64 (sumStat (fun x => x.Failures) cases) ∧
      (inInt64 (sumRecords cases) → st.TestSteps.Total = sumRecords cases) ∧
      (inInt64 (sumStat (fun x => x.Successes) cases) →
        st.TestSteps.Successes = sumStat (fun x => x.Successes) cases) ∧
      (inInt64 (sumStat (fun x => x.Failures) cases) →
        st.TestSteps.Failures = sumStat (fun x => x.Failures) cases) := by
  obtain ⟨s, st, hrun, hst, _, hdet, e1, e2, e3, e4, e5, e6⟩ :=
    appendAll_newOutSummary version goVersion osArch now cases hstat
  have hsum := countSuccess_add_countFail cases
  have hs0 := countSuccess_nonneg cases
  have hf0 := countFail_nonneg cases
  have hlen0 : (0 : Int) ≤ cases.length := Int.natCast_nonneg _
  have r1 : wrapInt64 (cases.length : Int) = cases.length :=
    wrapInt64_of_inInt64 ⟨by omega, hlen⟩
  have r2 : wrapInt64 (countSuccess cases) = countSuccess cases :=
    wrapInt64_of_inInt64 ⟨by omega, by omega⟩
  have r3 : wrapInt64 (countFail cases) = countFail cases :=
    wrapInt64_of_inInt64 ⟨by omega, by omega⟩
  refine ⟨s, st, hrun, hst, hdet, ?_, ?_, ?_, ?_, e4, e5, e6, ?_, ?_, ?_⟩
  · rw [e1, r1, hdet]
  · rw [e1, e2, e3, r1, r2, r3, hsum]
  · rw [e2, r2]
  · rw [e3, r3]
  · intro h
    rw [e4, wrapInt64_of_inInt64 h]
  · intro h
    rw [e5, wrapInt64_of_inInt64 h]
  · intro h
    rw [e6, wrapInt64_of_inInt64 h]

/-- Example: three summaries with 2, 3 and 1 records, two of them successful, give
`TestCases = {3, 2, 1}` and `TestSteps = {6, 4, 2}`. -/
theorem appendCaseSummary_counts_witness :
    ∃ s st, appendAll (newOutSummary "v4" "go1.17" "linux-amd64" 0) sampleCases = some s ∧
      s.Stat = some st ∧
      s.Details = sampleCases ∧
      st.TestCases = { Total := 3, Success := 2, Fail := 1 } ∧
      st.TestSteps = { Total := 6, Successes := 4, Failures := 2 } :=
  have h := appendCaseSummary_counts "v4" "go1.17" "linux-amd64" 0 sampleCases (by decide)
    (by decide)
  match h with
  | ⟨s, st, hrun, hst, hdet, _, _, _, _, _, _, _, _, _, _⟩ =>
    ⟨s, st, hrun, hst, hdet, by
      have : appendAll (newOutSummary "v4" "go1.17" "linux-amd64" 0) sampleCases =
          some { newOutSummary "v4" "go1.17" "linux-amd64" 0 with
            Success := false
            Stat := some ⟨⟨3, 2, 1⟩, ⟨6, 4, 2⟩⟩
            Details := sampleCases } := by decide
      rw [this] at hrun
      cases hrun
      cases hst
      exact ⟨rfl, rfl⟩⟩

/-! ## The supervisor: the group and the order of a cycle -/

theorem cycleShape_step (i last : Nat) (list : List Rendezvous) (r : Rendezvous)
    (evs : List Event) (s s2 : Supervisor) (e : Event) (hr : list[i]? = some r)
    (hinv : CycleInv i last r.Timeout evs s) (hsh : CycleShape i last list r evs s)
    (hstep : step i last s e = some s2) :
    CycleShape i last list r (evs ++ [e]) s2 := by
  unfold step at hstep
  split_ifs at hstep with hlt
  have hnow : s.now ≤ e.time := not_lt.mp hlt
  simp only at hstep
  split at hstep
  · rename_i hloc hsig
    obtain ⟨hevs, _, hrel, hlist⟩ := hsh.start hloc
    obtain ⟨_, _, r0, hr0, hr1, _⟩ := hinv.atStart hloc
    cases hstep
    rw [loopHead_select i last
      { s with now := e.time, timeout := timeoutOf i s,
               deadline := some (e.time + timeoutOf i s) } r0 hr0 hr1]
    refine ⟨by simp, ?_, fun _ => hlist, by simp, by simp⟩
    intro _
    refine ⟨e.time, [], ?_, le_rfl, ?_⟩
    · rw [hevs]
      cases e
      simp_all
    · intro rel hmem
      simp [hrel] at hmem
  · rename_i hloc hsig
    obtain ⟨_, ⟨r0, hr0, hr1, _⟩, _⟩ := hinv.inSelect hloc
    obtain ⟨t, rest, hevs, ht, hrels⟩ := hsh.first (by rw [hloc]; simp)
    cases hstep
    rw [loopHead_select i last { s with now := e.time, deadline := some (e.time + s.timeout) }
      r0 hr0 hr1]
    refine ⟨by simp, ?_, fun _ => hsh.inLoop hloc, by simp, by simp⟩
    intro _
    exact ⟨t, rest ++ [e], by rw [hevs]; rfl, ht.trans hnow, hrels⟩
  · rename_i hloc hsig
    obtain ⟨hrel, ⟨r0, hr0, _, hr2⟩, _⟩ := hinv.inSelect hloc
    obtain ⟨t, rest, hevs, ht, _⟩ := hsh.first (by rw [hloc]; simp)
    have hlist := hsh.inLoop hloc
    have hrr : r0 = r := by
      rw [hlist, hr] at hr0
      exact (Option.some.inj hr0).symm
    subst hrr
    cases hstep
    rw [releaseBranch_open i last { s with now := e.time } Reason.quorum r0 hr0 hr2]
    have hfirst : ∃ t rest, evs ++ [e] = ⟨t, Signal.activate⟩ :: rest ∧ t ≤ e.time ∧
        ∀ rel ∈ s.released ++ [(⟨e.time, Reason.quorum, r0.released⟩ : Release)], t ≤ rel.time := by
      refine ⟨t, rest ++ [e], by rw [hevs]; rfl, ht.trans hnow, ?_⟩
      intro rel hmem
      simp only [hrel, List.nil_append, List.mem_singleton] at hmem
      subst hmem
      exact ht.trans hnow
    split_ifs with hlast
    · exact ⟨by simp, fun _ => hfirst, by simp, by simp,
        fun _ => Or.inl ⟨hlast, by simp [hlist, Rendezvous.released]⟩⟩
    · exact ⟨by simp, fun _ => hfirst, by simp,
        fun _ => ⟨hlast, by simp [hlist, Rendezvous.released]⟩, by simp⟩
  · rename_i hloc hsig
    split at hstep
    · cases hstep
    · split_ifs at hstep
      obtain ⟨hrel, ⟨r0, hr0, _, hr2⟩, _⟩ := hinv.inSelect hloc
      obtain ⟨t, rest, hevs, ht, _⟩ := hsh.first (by rw [hloc]; simp)
      have hlist := hsh.inLoop hloc
      have hrr : r0 = r := by
        rw [hlist, hr] at hr0
        exact (Option.some.inj hr0).symm
      subst hrr
      cases hstep
      rw [releaseBranch_open i last { s with now := e.time, deadline := none } Reason.timeout
        r0 hr0 hr2]
      have hfirst : ∃ t rest, evs ++ [e] = ⟨t, Signal.activate⟩ :: rest ∧ t ≤ e.time ∧
          ∀ rel ∈ s.released ++ [(⟨e.time, Reason.timeout, r0.released⟩ : Release)],
            t ≤ rel.time := by
        refine ⟨t, rest ++ [e], by rw [hevs]; rfl, ht.trans hnow, ?_⟩
        intro rel hmem
        simp only [hrel, List.nil_append, List.mem_singleton] at hmem
        subst hmem
        exact ht.trans hnow
      split_ifs with hlast
      · exact ⟨by simp, fun _ => hfirst, by simp, by simp,
          fun _ => Or.inl ⟨hlast, by simp [hlist, Rendezvous.released]⟩⟩
      · exact ⟨by simp, fun _ => hfirst, by simp,
          fun _ => ⟨hlast, by simp [hlist, Rendezvous.released]⟩, by simp⟩
  · rename_i hloc hsig
    obtain ⟨hne, hlist⟩ := hsh.waiting hloc
    obtain ⟨t, rest, hevs, ht, hrels⟩ := hsh.first (by rw [hloc]; simp)
    cases hstep
    refine ⟨by simp, ?_, by simp, by simp, ?_⟩
    · intro _
      exact ⟨t, rest ++ [e], by rw [hevs]; rfl, ht.trans hnow, hrels⟩
    · intro _
      refine Or.inr ⟨hne, hlist, evs, e.time, ?_⟩
      cases e
      simp_all
  · cases hstep

/-- The shape holds along every run of a cycle that starts with the barrier not
released and its release channel open. -/
theorem cycleShape_run (i last : Nat) (list : List Rendezvous) (t0 : Int) (r : Rendezvous)
    (hr : list[i]? = some r) (hr1 : r.isReleased = false) (hr2 : r.releaseClosed = false)
    (evs : List Event) :
    ∀ s, run i last (cycleStart list t0) evs = some s → CycleShape i last list r evs s := by
  induction evs using List.reverseRecOn with
  | nil =>
    intro s hs
    simp only [run, Option.some.injEq] at hs
    subst hs
    exact ⟨fun _ => ⟨rfl, rfl, rfl, rfl⟩, by simp [cycleStart], by simp [cycleStart],
      by simp [cycleStart], by simp [cycleStart]⟩
  | append_singleton evs e ih =>
    intro s hs
    obtain ⟨s1, h1, h2⟩ := run_snoc i last _ s evs e hs
    exact cycleShape_step i last list r evs s1 s e hr
      (cycleInv_run i last list t0 r hr hr1 hr2 evs s1 h1) (ih s1 h1) h2

theorem length_pos_of_getElem? {α : Type} (l : List α) (i : Nat) (x : α) (h : l[i]? = some x) :
    i < l.length := by
  by_contra hge
  rw [List.getElem?_eq_none (by omega)] at h
  cases h

/-- C11.  `waitRendezvous` gives every supervisor the final element of the list
as `lastRendezvous`.  In a cycle that starts with the barrier not released, the
supervisor of an earlier barrier resets nothing: it leaves every other barrier
untouched and changes its own barrier only by releasing it, and its cycle is
over only with the delivery of the last barrier's release.  The supervisor of
the last barrier leaves the group untouched until the end of its cycle, and ends
its cycle with every barrier of the group reset. -/
theorem supervisor_group_reset (i : Nat) (list : List Rendezvous) (t0 : Int) (r : Rendezvous)
    (evs : List Event) (s : Supervisor)
    (hr : list[i]? = some r) (hr1 : r.isReleased = false) (hr2 : r.releaseClosed = false)
    (hrun : run i (list.length - 1) (cycleStart list t0) evs = some s) :
    waitRendezvous (some list) =
      some ((List.range list.length).map (fun j => (j, list.length - 1))) ∧
    (i ≠ list.length - 1 →
      (∀ j, j ≠ i → s.list[j]? = list[j]?) ∧
      (s.list[i]? = some r ∨ s.list[i]? = some r.released) ∧
      (s.loc = Loc.done → ∃ pre t, evs = pre ++ [⟨t, Signal.lastReleased⟩])) ∧
    (i = list.length - 1 →
      (s.loc ≠ Loc.done → s.list = list) ∧
      (s.loc = Loc.done →
        s.list = (list.set i r.released).map Rendezvous.reset ∧
        s.list.length = list.length ∧
        ∀ b ∈ s.list, b.cnt = 0 ∧ b.isReleased = false ∧ b.activateClosed = false ∧
          b.releaseClosed = false ∧ b.wg = b.Number)) := by
  have hi : i < list.length := length_pos_of_getElem? list i r hr
  have hinv := cycleInv_run i (list.length - 1) list t0 r hr hr1 hr2 evs s hrun
  have hsh := cycleShape_run i (list.length - 1) list t0 r hr hr1 hr2 evs s hrun
  have hcases : s.loc = Loc.waitActivate ∨ s.loc = Loc.select ∨ s.loc = Loc.waitLast ∨
      s.loc = Loc.done := by
    have := hinv.noPanic
    cases hl : s.loc <;> simp_all
  refine ⟨?_, ?_, ?_⟩
  · unfold waitRendezvous
    simp [Nat.ne_of_gt (by omega : 0 < list.length)]
  · intro hne
    have hset : s.list = list ∨ s.list = list.set i r.released := by
      rcases hcases with h | h | h | h
      · exact Or.inl (hsh.start h).2.2.2
      · exact Or.inl (hsh.inLoop h)
      · exact Or.inr (hsh.waiting h).2
      · rcases hsh.finished h with ⟨heq, _⟩ | ⟨_, hl, _⟩
        · exact absurd heq hne
        · exact Or.inr hl
    refine ⟨?_, ?_, ?_⟩
    · intro j hj
      rcases hset with h | h
      · rw [h]
      · rw [h, List.getElem?_set_ne (Ne.symm hj)]
    · rcases hset with h | h
      · exact Or.inl (by rw [h, hr])
      · exact Or.inr (by rw [h, List.getElem?_set_self hi])
    · intro hdone
      rcases hsh.finished hdone with ⟨heq, _⟩ | ⟨_, _, hlast⟩
      · exact absurd heq hne
      · exact hlast
  · intro heq
    refine ⟨?_, ?_⟩
    · intro hnd
      rcases hcases with h | h | h | h
      · exact (hsh.start h).2.2.2
      · exact hsh.inLoop h
      · exact absurd heq (hsh.waiting h).1
      · exact absurd h hnd
    · intro hdone
      rcases hsh.finished hdone with ⟨_, hl⟩ | ⟨hne, _⟩
      · refine ⟨hl, by rw [hl]; simp, ?_⟩
        intro b hb
        rw [hl] at hb
        obtain ⟨a, _, rfl⟩ := List.mem_map.mp hb
        simp [Rendezvous.reset, Rendezvous.isReleased]
      · exact absurd heq hne

/-- Example: the first of two barriers is released at 4 ms; its supervisor has
reset nothing and its cycle ends at 9 ms, with the release of the last barrier. -/
theorem supervisor_group_reset_witness :
    run 0 1 (cycleStart twoBarriers 0) pipelineRun = some pipelineRunEnd ∧
    waitRendezvous (some twoBarriers) = some [(0, 1), (1, 1)] ∧
    (∀ j, j ≠ 0 → pipelineRunEnd.list[j]? = twoBarriers[j]?) ∧
    (pipelineRunEnd.list[0]? = some barrier5 ∨
      pipelineRunEnd.list[0]? = some barrier5.released) ∧
    (∃ pre t, pipelineRun = pre ++ [⟨t, Signal.lastReleased⟩]) :=
  have h := supervisor_group_reset 0 twoBarriers 0 barrier5 pipelineRun pipelineRunEnd rfl
    (by decide!) (by decide!) (by decide!)
  have h2 := h.2.1 (by decide)
  ⟨by decide!, h.1.trans (by decide), h2.1, h2.2.1, h2.2.2 rfl⟩

/-! ## The outer loop among the other goroutines: lemmas -/

/-- The receive of line 103 followed at once by the loop test is the activation
step of a cycle on its own. -/
theorem supervise_activate_resume (i last : Nat) (w : Loop) (t : Int)
    (hp : w.pending = false) (hready : signalReady i last w Signal.activate = true)
    (hloc : w.sup.loc = Loc.waitActivate) :
    supervise i last w [Delivery.signal ⟨t, Signal.activate⟩, Delivery.resume] =
      (step i last w.sup ⟨t, Signal.activate⟩).map
        (endOfStep i last { w with stopClosed := false }) := by
  simp only [supervise, superviseStep, hp, hready, hloc, step]
  by_cases ht : t < w.sup.now
  · simp [ht]
  · simp [ht, endOfStep]

/-- Once the last supervisor has reset the group, the supervisor of an earlier
barrier sees the reset barrier: it goes through a second cycle with a second
release. -/
theorem supervise_second_cycle :
    supervise 0 1 firstIterationEnd secondCycle = some secondCycleEnd := by
  decide!

/-! ## The outer loop among the other goroutines: the claims -/

/-- C9: the code at the failing input.  The supervisor of the first barrier of a
group of two has finished an iteration: one user has arrived, the barrier has
been released through the `stop` branch, and the release of the last barrier
has woken the supervisor at line 146.  Before the last supervisor has reset the
group (lines 141-144), the supervisor goes through a second iteration of its
outer `for`: the receive of line 103 returns on the channel that the arrival of
the finished iteration has closed, the loop test of line 111 finds the barrier
still released, so that the `select` is never entered, and line 146 returns on
the release channel that is still closed.  In this iteration no release branch
runs and the release channel is not closed: two iterations, one release. -/
theorem supervisor_iteration_without_release :
    stagedGroup = [barrierA, barrierB] ∧
    supervise 0 1 (loopStart stagedGroup 0) firstIteration = some firstIterationEnd ∧
    firstIterationEnd.cycles = 1 ∧
    firstIterationEnd.sup.released.map (fun x => (x.time, x.reason)) = [(0, Reason.quorum)] ∧
    supervise 0 1 firstIterationEnd staleIteration = some staleIterationEnd ∧
    staleIterationEnd.cycles = 2 ∧
    staleIterationEnd.sup.released = firstIterationEnd.sup.released ∧
    staleIterationEnd.sup.list = firstIterationEnd.sup.list ∧
    (∀ j, Delivery.reset j ∉ firstIteration ++ staleIteration) := by
  refine ⟨by decide!, by decide!, by decide!, by decide!, by decide!, by decide!, by decide!,
    by decide!, ?_⟩
  intro j hj
  simp [firstIteration, staleIteration, sigMs] at hj

/-- C13: the code at the failing input.  The supervisor of the first barrier of
a group of two has finished an iteration: one user has arrived, the barrier has
been released through the `stop` branch, and the release of the last barrier
has woken the supervisor at line 146.  Before the last supervisor has reset the
group (lines 141-144), the supervisor is back at line 103, where the receive
returns on the channel that the arrival of the finished iteration has closed,
and it starts the timer.  Then the reset lands: the timer runs on a barrier at
which nobody has arrived (`cnt = 0`, activation channel open).  The loop test of
line 111 now finds the barrier not released, and 200 ms later the `timer.C`
branch releases it, with `cnt = 0`: a release before the first arrival of the
cycle.  No user arrives after the first iteration. -/
theorem supervisor_release_without_arrival :
    stagedGroup = [barrierA, barrierB] ∧
    supervise 0 1 (loopStart stagedGroup 0) firstIteration = some firstIterationEnd ∧
    supervise 0 1 firstIterationEnd lateReset = some lateResetEnd ∧
    lateResetEnd.sup.deadline = some (201 * Millisecond) ∧
    lateResetEnd.sup.list[0]?.map (fun b => (b.cnt, b.activateClosed, b.isReleased)) =
      some (0, false, false) ∧
    supervise 0 1 lateResetEnd lateExpiry = some lateExpiryEnd ∧
    lateExpiryEnd.sup.released.map (fun x => (x.time, x.reason, x.barrier.cnt)) =
      [(0, Reason.quorum, 1), (201 * Millisecond, Reason.timeout, 0)] ∧
    lateExpiryEnd.sup.list[0]?.map (fun b => (b.cnt, b.activateClosed, b.isReleased)) =
      some (0, false, true) ∧
    Delivery.arrive ∉ lateReset ++ lateExpiry := by
  refine ⟨by decide!, by decide!, by decide!, by decide!, by decide!, by decide!, by decide!,
    by decide!, by decide!⟩

end Hrp
